import Mathlib

/-!
The stream parser of go-midi and its variable-length quantity.

A shallow embedding of `parser.go`, `deltatime.go` and `instrumentnameevent.go`.
Bytes are natural numbers (a Go `byte` is a number below 256), a `[]byte` is a
`List Nat`, and a method of `*Parser` becomes a function from the parser state to
either a failure or its results together with the state it leaves behind.
-/

namespace Midi

/-- Ways a parser method stops without a result. All but the last are the errors
the Go code returns as `err`; `outOfRange` is the run-time fault of an index or
slice expression that reaches outside the buffer. -/
inductive Failure where
  | emptyStream
  | quantityTooLong
  | missingNextByte
  | invalidChunkID
  | invalidHeaderSize
  | invalidFormatType
  | invalidTrackID
  | missingEndOfTrack
  | textTooLarge
  | outOfRange
  deriving DecidableEq, Repr

deriving instance DecidableEq for Except

/-- Go index expression `s[i]`: a fault when `i` is not below `len(s)`. -/
def index (s : List Nat) (i : Nat) : Except Failure Nat :=
  match s[i]? with
  | some b => .ok b
  | none => .error .outOfRange

/-- Go slice expression `s[lo:hi]`. Go bounds `hi` by `cap(s)`; the buffers of this
embedding carry no spare capacity (`cap(s) = len(s)`, as for a `[]byte` literal),
so the bound here is `len(s)`: a fault unless `lo <= hi <= len(s)`. On a buffer
with spare capacity Go returns bytes of the backing array past `len(s)` where
this definition gives `outOfRange`. -/
def slice (s : List Nat) (lo hi : Nat) : Except Failure (List Nat) :=
  if lo ≤ hi ∧ hi ≤ s.length then .ok ((s.drop lo).take (hi - lo)) else .error .outOfRange

/-- Modelled from the spec: the `Quantity` type is declared outside the listed
sources. It owns the raw bytes of a variable-length quantity (`value []byte`);
an empty `value` is a quantity that has not been set. -/
structure Quantity where
  value : List Nat
  deriving DecidableEq, Repr

/-- Modelled from the spec: `Quantity.Value`, the raw byte access "exposed for
embedding inside event serialization". An unset quantity reads as the single byte
`0x00`, which is what the serialization tests expect of an event built with a nil
delta-time. -/
def Quantity.Value (q : Quantity) : List Nat :=
  if q.value.length = 0 then [0x00] else q.value

/-- Modelled from the spec: `Quantity.Uint32`, the decoded value, "accumulating
the low 7 bits of each [byte] into a big-endian-ordered value", in 32 bits. -/
def Quantity.Uint32 (q : Quantity) : Nat :=
  q.Value.foldl (fun acc b => (acc * 128 + b % 128) % 2 ^ 32) 0

/-- Modelled from the spec: `Quantity.SetUint32`, the encoder, which "emits the
minimal byte count, continuation bits set on all but the last byte". Above
`2^28 - 1` the spec leaves the encoder undefined; here the quantity stays unset. -/
def Quantity.SetUint32 (_q : Quantity) (v : Nat) : Quantity :=
  if v < 0x80 then ⟨[v]⟩
  else if v < 0x4000 then ⟨[0x80 + v / 0x80, v % 0x80]⟩
  else if v < 0x200000 then ⟨[0x80 + v / 0x4000, 0x80 + v / 0x80 % 0x80, v % 0x80]⟩
  else if v < 0x10000000 then
    ⟨[0x80 + v / 0x200000, 0x80 + v / 0x4000 % 0x80, 0x80 + v / 0x80 % 0x80, v % 0x80]⟩
  else ⟨[]⟩

/-- The `DeltaTime` of deltatime.go: a wrapper around a `Quantity`. A nil
`*DeltaTime` is read by every accessor as a fresh `&DeltaTime{}`, that is, as the
wrapper of an unset quantity. -/
structure DeltaTime where
  quantity : Quantity
  deriving DecidableEq, Repr

/-- The method `DeltaTime.Value` of deltatime.go: `int(d.value[0])`. -/
def DeltaTime.Value (d : DeltaTime) : Except Failure Nat :=
  index d.quantity.value 0

/-- The method `DeltaTime.serialize` of deltatime.go. -/
def DeltaTime.serialize (d : DeltaTime) : List Nat :=
  d.quantity.value

/-- The parser state of parser.go (the logger left out). -/
structure Parser where
  data : List Nat
  position : Nat
  previousEventType : Nat
  deriving DecidableEq, Repr

/-- The constructor `NewParser`: cursor 0 and no previous status. -/
def NewParser (data : List Nat) : Parser :=
  { data := data, position := 0, previousEventType := 0 }

/-- The `for` loop of `Parser.parseQuantity`, started at index `i` with
`rest = p.data[i:]`: the test `len(p.data) < i+1` is `rest = []` and `p.data[i]`
is the head of `rest`. The result is the value of `i` at the `break`. -/
def parseQuantityLoop : List Nat → Nat → Except Failure Nat
  | rest, i =>
    if i > 3 then .error .quantityTooLong
    else match rest with
      | [] => .error .missingNextByte
      | b :: tl => if b < 0x80 then .ok i else parseQuantityLoop tl (i + 1)

/-- The method `Parser.parseQuantity`: it reads from the start of `p.data`;
`make([]byte, i+1)` followed by `copy` gives the first `i+1` bytes, zero-filled
where the buffer is shorter. -/
def Parser.parseQuantity (p : Parser) : Except Failure Quantity :=
  if p.data.length = 0 then .error .emptyStream
  else do
    let i ← parseQuantityLoop p.data 0
    pure ⟨p.data.take (i + 1) ++ List.replicate (i + 1 - p.data.length) 0⟩

/-- The method `Parser.parseDeltaTime`. -/
def Parser.parseDeltaTime (p : Parser) : Except Failure DeltaTime := do
  let q ← p.parseQuantity
  pure ⟨q⟩

/-! ## Status bytes and meta-event type codes

The constant declarations are outside the listed sources; the values are the ones
the spec and the serialization tests give. -/

/-- Modelled from the spec: the constant `Meta`, "status 0xFF". -/
def Meta : Nat := 0xff
/-- Modelled from the spec: the constant `SystemExclusive`, status 0xF0. -/
def SystemExclusive : Nat := 0xf0
/-- Modelled from the spec: the constant `DividedSystemExclusive`, status 0xF7. -/
def DividedSystemExclusive : Nat := 0xf7
/-- Modelled from the spec: the constant `NoteOff`, top nibble 0x8. -/
def NoteOff : Nat := 0x80
/-- Modelled from the spec: the constant `NoteOn`, top nibble 0x9. -/
def NoteOn : Nat := 0x90
/-- Modelled from the spec: the constant `NoteAfterTouch`, top nibble 0xA. -/
def NoteAfterTouch : Nat := 0xa0
/-- Modelled from the spec: the constant `Controller`, top nibble 0xB. -/
def Controller : Nat := 0xb0
/-- Modelled from the spec: the constant `ProgramChange`, top nibble 0xC. -/
def ProgramChange : Nat := 0xc0
/-- Modelled from the spec: the constant `ChannelAfterTouch`, top nibble 0xD. -/
def ChannelAfterTouch : Nat := 0xd0
/-- Modelled from the spec: the constant `PitchBend`, top nibble 0xE. -/
def PitchBend : Nat := 0xe0
/-- Modelled from the spec: the meta-type code `Text` (0x01 in the Text test). -/
def Text : Nat := 0x01
/-- Modelled from the spec: the meta-type code `CopyrightNotice`. -/
def CopyrightNotice : Nat := 0x02
/-- Modelled from the spec: the meta-type code `SequenceOrTrackName`. -/
def SequenceOrTrackName : Nat := 0x03
/-- Modelled from the spec: the meta-type code `InstrumentName`. -/
def InstrumentName : Nat := 0x04
/-- Modelled from the spec: the meta-type code `Lyrics` (0x05 in the Lyrics test). -/
def Lyrics : Nat := 0x05
/-- Modelled from the spec: the meta-type code `Marker`. -/
def Marker : Nat := 0x06
/-- Modelled from the spec: the meta-type code `CuePoint`. -/
def CuePoint : Nat := 0x07
/-- Modelled from the spec: the meta-type code `MIDIChannelPrefix` of the SMF format. -/
def MIDIChannelPrefix : Nat := 0x20
/-- Modelled from the spec: the meta-type code `MIDIPortPrefix` of the SMF format. -/
def MIDIPortPrefix : Nat := 0x21
/-- Modelled from the spec: the meta-type code `EndOfTrack` (`00 FF 2F 00`). -/
def EndOfTrack : Nat := 0x2f
/-- Modelled from the spec: the meta-type code `SetTempo` of the SMF format. -/
def SetTempo : Nat := 0x51
/-- Modelled from the spec: the meta-type code `SMPTEOffset` of the SMF format. -/
def SMPTEOffset : Nat := 0x54
/-- Modelled from the spec: the meta-type code `TimeSignature` of the SMF format. -/
def TimeSignature : Nat := 0x58
/-- Modelled from the spec: the meta-type code `KeySignature` of the SMF format. -/
def KeySignature : Nat := 0x59
/-- Modelled from the spec: the meta-type code `SequencerSpecific` (0x7f in its test). -/
def SequencerSpecific : Nat := 0x7f

/-! ## Events -/

/-- The struct `InstrumentNameEvent` of instrumentnameevent.go; a nil `text` is
read by `Text()` as the empty slice. -/
structure InstrumentNameEvent where
  deltaTime : DeltaTime
  text : List Nat
  deriving DecidableEq, Repr

/-- The event variants the parser builds, one constructor for each Go struct,
with the fields the parser fills in. -/
inductive Event where
  | TextEvent (deltaTime : DeltaTime) (text : List Nat)
  | CopyrightNoticeEvent (deltaTime : DeltaTime) (text : List Nat)
  | SequenceOrTrackNameEvent (deltaTime : DeltaTime) (text : List Nat)
  | InstrumentNameEvent (e : InstrumentNameEvent)
  | LyricsEvent (deltaTime : DeltaTime) (text : List Nat)
  | MarkerEvent (deltaTime : DeltaTime) (text : List Nat)
  | CuePointEvent (deltaTime : DeltaTime) (text : List Nat)
  | MIDIPortPrefixEvent (deltaTime : DeltaTime) (port : Nat)
  | MIDIChannelPrefixEvent (deltaTime : DeltaTime) (channel : Nat)
  | SetTempoEvent (deltaTime : DeltaTime) (tempo : Nat)
  | SMPTEOffsetEvent (deltaTime : DeltaTime) (hour minute second frame subFrame : Nat)
  | TimeSignatureEvent (deltaTime : DeltaTime)
      (numerator denominator metronomePulse quarterNote : Nat)
  | KeySignatureEvent (deltaTime : DeltaTime) (key : Int) (scale : Nat)
  | SequencerSpecificEvent (deltaTime : DeltaTime) (data : List Nat)
  | EndOfTrackEvent (deltaTime : DeltaTime)
  | AlienEvent (deltaTime : DeltaTime) (metaEventType : Nat) (data : List Nat)
  | SystemExclusiveEvent (deltaTime : DeltaTime) (data : List Nat)
  | DividedSystemExclusiveEvent (deltaTime : DeltaTime) (data : List Nat)
  | NoteOffEvent (deltaTime : DeltaTime) (channel note velocity : Nat)
  | NoteOnEvent (deltaTime : DeltaTime) (channel note velocity : Nat)
  | NoteAfterTouchEvent (deltaTime : DeltaTime) (channel note velocity : Nat)
  | ControllerEvent (deltaTime : DeltaTime) (channel control value : Nat)
  | ProgramChangeEvent (deltaTime : DeltaTime) (channel program : Nat)
  | ChannelAfterTouchEvent (deltaTime : DeltaTime) (channel velocity : Nat)
  | PitchBendEvent (deltaTime : DeltaTime) (channel pitch : Nat)
  | ContinuousControllerEvent (deltaTime : DeltaTime) (control value : Nat)
  deriving DecidableEq, Repr

/-- What `parseEvent` and its three helpers return on success: the event (an
interface value, `none` when it is nil), `sizeOfEvent`, and the parser afterwards. -/
abbrev Parsed := Option Event × Nat × Parser

/-- Go conversion `int8(b)` of a byte. -/
def toInt8 (b : Nat) : Int :=
  if b % 256 < 128 then (b % 256 : Nat) else ((b % 256 : Nat) : Int) - 256

/-- The `switch metaEventType` of `parseMetaEvent`. -/
def buildMetaEvent (deltaTime : DeltaTime) (metaEventType : Nat) (metaEventData : List Nat) :
    Except Failure Event :=
  if metaEventType = Text then pure (.TextEvent deltaTime metaEventData)
  else if metaEventType = CopyrightNotice then pure (.CopyrightNoticeEvent deltaTime metaEventData)
  else if metaEventType = SequenceOrTrackName then
    pure (.SequenceOrTrackNameEvent deltaTime metaEventData)
  else if metaEventType = InstrumentName then pure (.InstrumentNameEvent ⟨deltaTime, metaEventData⟩)
  else if metaEventType = Lyrics then pure (.LyricsEvent deltaTime metaEventData)
  else if metaEventType = Marker then pure (.MarkerEvent deltaTime metaEventData)
  else if metaEventType = CuePoint then pure (.CuePointEvent deltaTime metaEventData)
  else if metaEventType = MIDIPortPrefix then do
    let port ← index metaEventData 0
    pure (.MIDIPortPrefixEvent deltaTime port)
  else if metaEventType = MIDIChannelPrefix then do
    let channel ← index metaEventData 0
    pure (.MIDIChannelPrefixEvent deltaTime channel)
  else if metaEventType = SetTempo then do
    let b0 ← index metaEventData 0
    let tempo := b0 % 2 ^ 32
    let b1 ← index metaEventData 1
    let tempo := ((tempo <<< 8) % 2 ^ 32 + b1) % 2 ^ 32
    let b2 ← index metaEventData 2
    let tempo := ((tempo <<< 8) % 2 ^ 32 + b2) % 2 ^ 32
    pure (.SetTempoEvent deltaTime tempo)
  else if metaEventType = SMPTEOffset then do
    let hour ← index metaEventData 0
    let minute ← index metaEventData 1
    let second ← index metaEventData 2
    let frame ← index metaEventData 3
    let subFrame ← index metaEventData 4
    pure (.SMPTEOffsetEvent deltaTime hour minute second frame subFrame)
  else if metaEventType = TimeSignature then do
    let numerator ← index metaEventData 0
    let denominator ← index metaEventData 1
    let metronomePulse ← index metaEventData 2
    let quarterNote ← index metaEventData 3
    pure (.TimeSignatureEvent deltaTime numerator denominator metronomePulse quarterNote)
  else if metaEventType = KeySignature then do
    let key ← index metaEventData 0
    let scale ← index metaEventData 1
    pure (.KeySignatureEvent deltaTime (toInt8 key) scale)
  else if metaEventType = SequencerSpecific then
    pure (.SequencerSpecificEvent deltaTime metaEventData)
  else if metaEventType = EndOfTrack then pure (.EndOfTrackEvent deltaTime)
  else pure (.AlienEvent deltaTime metaEventType metaEventData)

/-- The method `Parser.parseMetaEvent`. -/
def Parser.parseMetaEvent (p : Parser) (deltaTime : DeltaTime) : Except Failure Parsed := do
  let q ← p.parseQuantity
  let offset := 2 + q.value.length
  let sizeOfData := q.Uint32
  let sizeOfEvent := deltaTime.quantity.Value.length + offset + sizeOfData
  let metaEventType ← index p.data 1
  let metaEventData ← slice p.data offset (offset + sizeOfData)
  let event ← buildMetaEvent deltaTime metaEventType metaEventData
  pure (some event, sizeOfEvent, { p with previousEventType := Meta })

/-- The method `Parser.parseSystemExclusiveEvent`. When the byte `p.data[0]` is
neither status, no case of the `switch` runs and the returned event is nil. -/
def Parser.parseSystemExclusiveEvent (p : Parser) (deltaTime : DeltaTime) :
    Except Failure Parsed := do
  let q ← p.parseQuantity
  let offset := 1 + q.value.length
  let sizeOfData := q.Uint32
  let sizeOfEvent := deltaTime.quantity.value.length + offset + sizeOfData
  let eventType ← index p.data 0
  let event ←
    if eventType = SystemExclusive then do
      let data ← slice p.data offset (offset + sizeOfData)
      pure (some (Event.SystemExclusiveEvent deltaTime data))
    else if eventType = DividedSystemExclusive then do
      let data ← slice p.data offset (offset + sizeOfData)
      pure (some (Event.DividedSystemExclusiveEvent deltaTime data))
    else pure none
  pure (event, sizeOfEvent, { p with previousEventType := eventType })

/-- The `switch eventType & 0xf0` of `parseMIDIControlEvent`: the event built and
`sizeOfMIDIControlEvent`. `parameter` is the slice `p.data[1:3]`. -/
def buildMIDIControlEvent (p : Parser) (deltaTime : DeltaTime) (eventType : Nat)
    (parameter : List Nat) (channel : Nat) : Except Failure (Event × Nat) :=
  if eventType &&& 0xf0 = NoteOff then do
    let note ← index parameter 0
    let velocity ← index parameter 1
    pure (.NoteOffEvent deltaTime channel note velocity, 3)
  else if eventType &&& 0xf0 = NoteOn then do
    let note ← index parameter 0
    let velocity ← index parameter 1
    pure (.NoteOnEvent deltaTime channel note velocity, 3)
  else if eventType &&& 0xf0 = NoteAfterTouch then do
    let note ← index parameter 0
    let velocity ← index parameter 1
    pure (.NoteAfterTouchEvent deltaTime channel note velocity, 3)
  else if eventType &&& 0xf0 = Controller then do
    let control ← index parameter 0
    let value ← index parameter 1
    pure (.ControllerEvent deltaTime channel control value, 3)
  else if eventType &&& 0xf0 = ProgramChange then do
    let program ← index parameter 0
    pure (.ProgramChangeEvent deltaTime channel program, 2)
  else if eventType &&& 0xf0 = ChannelAfterTouch then do
    let velocity ← index parameter 0
    pure (.ChannelAfterTouchEvent deltaTime channel velocity, 2)
  else if eventType &&& 0xf0 = PitchBend then do
    let b0 ← index parameter 0
    let pitch := ((b0 &&& 0x7f) <<< 7) % 2 ^ 16
    let b1 ← index parameter 1
    let pitch := (pitch + (b1 &&& 0x7f)) % 2 ^ 16
    pure (.PitchBendEvent deltaTime channel pitch, 3)
  else do
    let control ← index p.data 0
    let value ← index p.data 1
    pure (.ContinuousControllerEvent deltaTime control value, 2)

/-- The method `Parser.parseMIDIControlEvent`. -/
def Parser.parseMIDIControlEvent (p : Parser) (deltaTime : DeltaTime) (eventType : Nat) :
    Except Failure Parsed := do
  let parameter ← slice p.data 1 3
  let channel := eventType &&& 0x0f
  let (event, sizeOfMIDIControlEvent) ← buildMIDIControlEvent p deltaTime eventType parameter channel
  let sizeOfEvent := deltaTime.quantity.Value.length + sizeOfMIDIControlEvent
  pure (some event, sizeOfEvent, { p with previousEventType := eventType })

/-- The method `Parser.parseEvent`. -/
def Parser.parseEvent (p : Parser) : Except Failure Parsed := do
  let deltaTime ← p.parseDeltaTime
  let sizeOfDeltaTime := deltaTime.quantity.value.length
  let eventType ← index p.data sizeOfDeltaTime
  let eventType :=
    if eventType < 0x80 ∧ p.previousEventType ≥ 0x80 then p.previousEventType else eventType
  if eventType = Meta then p.parseMetaEvent deltaTime
  else if eventType = SystemExclusive ∨ eventType = DividedSystemExclusive then
    p.parseSystemExclusiveEvent deltaTime
  else p.parseMIDIControlEvent deltaTime eventType

/-- The struct `Track`: the events in the order they were appended; a nil event
interface is `none`. -/
structure Track where
  Events : List (Option Event)
  deriving DecidableEq, Repr

/-- The `for` loop of `Parser.parseTrack`, run for at most `fuel` iterations;
`none` when the iterations run out before the loop leaves. -/
def parseTrackLoop : Nat → Parser → Track → Option (Except Failure (Track × Parser))
  | 0, _, _ => none
  | fuel + 1, p, track =>
    if p.position ≥ p.data.length then some (.error .missingEndOfTrack)
    else
      match p.parseEvent with
      | .error e => some (.error e)
      | .ok (event, sizeOfEvent, p1) =>
        let track1 : Track := ⟨track.Events ++ [event]⟩
        let p2 : Parser := { p1 with position := p1.position + sizeOfEvent }
        match event with
        | some (.EndOfTrackEvent _) => some (.ok (track1, p2))
        | _ => parseTrackLoop fuel p2 track1

/-- The method `Parser.parseTrack`. Every iteration that does not leave the loop
moves the cursor forward, so `len(p.data) + 1` iterations are enough. -/
def Parser.parseTrack (p : Parser) : Option (Except Failure (Track × Parser)) :=
  parseTrackLoop (p.data.length + 1) p ⟨[]⟩

/-- The method `InstrumentNameEvent.Text`. -/
def InstrumentNameEvent.Text (e : InstrumentNameEvent) : List Nat :=
  e.text

/-- The method `InstrumentNameEvent.Serialize`. -/
def InstrumentNameEvent.Serialize (e : InstrumentNameEvent) : List Nat :=
  let bs : List Nat := []
  let bs := bs ++ e.deltaTime.quantity.Value
  let bs := bs ++ [Meta, InstrumentName]
  let q := (Quantity.mk []).SetUint32 (e.Text.length % 2 ^ 32)
  let bs := bs ++ q.Value
  bs ++ e.Text

/-- The method `InstrumentNameEvent.SetText` on the receiver `e`: the receiver
after the call and the returned `error` (`none` for nil). -/
def InstrumentNameEvent.SetText (e : InstrumentNameEvent) (text : List Nat) :
    InstrumentNameEvent × Option Failure :=
  if text.length > 0xfffffff then (e, some .textTooLarge)
  else ({ e with text := text }, none)

/-- The constructor `NewInstrumentNameEvent`: `(nil, err)` when `SetText` fails,
`(event, nil)` otherwise. -/
def NewInstrumentNameEvent (deltaTime : DeltaTime) (text : List Nat) :
    Except Failure InstrumentNameEvent :=
  let event : InstrumentNameEvent := ⟨deltaTime, []⟩
  match event.SetText text with
  | (_, some err) => .error err
  | (event, none) => .ok event

/-! ## Header and track chunks -/

/-- The bytes of the string literal `"MThd"`. -/
def MThd : List Nat := [0x4d, 0x54, 0x68, 0x64]

/-- The bytes of the string literal `"MTrk"`. -/
def MTrk : List Nat := [0x4d, 0x54, 0x72, 0x6b]

/-- The method `Parser.parseHeader`: `formatType`, `numberOfTracks` and
`timeDivision` (all `uint16`) and the parser afterwards. -/
def Parser.parseHeader (p : Parser) : Except Failure ((Nat × Nat × Nat) × Parser) := do
  let mthd ← slice p.data p.position 4
  if mthd ≠ MThd then .error .invalidChunkID
  else
    let p : Parser := { p with position := p.position + 4 }
    let headerSize ← index p.data (p.position + 3)
    if headerSize ≠ 6 then .error .invalidHeaderSize
    else
      let p : Parser := { p with position := p.position + 4 }
      let b ← index p.data (p.position + 1)
      let formatType := b % 2 ^ 16
      if formatType > 3 then .error .invalidFormatType
      else
        let p : Parser := { p with position := p.position + 2 }
        let b0 ← index p.data p.position
        let numberOfTracks := b0 % 2 ^ 16
        let numberOfTracks := (numberOfTracks <<< 8) % 2 ^ 16
        let b1 ← index p.data (p.position + 1)
        let numberOfTracks := (numberOfTracks + b1 % 2 ^ 16) % 2 ^ 16
        let p : Parser := { p with position := p.position + 2 }
        let b0 ← index p.data p.position
        let timeDivision := b0 % 2 ^ 16
        let timeDivision := (timeDivision <<< 8) % 2 ^ 16
        let b1 ← index p.data (p.position + 1)
        let timeDivision := (timeDivision + b1 % 2 ^ 16) % 2 ^ 16
        let p : Parser := { p with position := p.position + 2 }
        pure ((formatType, numberOfTracks, timeDivision), p)

/-- The four reads of `parseTracks` that build `chunkSize` (a `uint32`) from the
bytes at `p.position .. p.position+3`. -/
def readChunkSize (p : Parser) : Except Failure Nat := do
  let b0 ← index p.data p.position
  let chunkSize := b0 % 2 ^ 32
  let chunkSize := (chunkSize <<< 8) % 2 ^ 32
  let b1 ← index p.data (p.position + 1)
  let chunkSize := (chunkSize + b1 % 2 ^ 32) % 2 ^ 32
  let chunkSize := (chunkSize <<< 8) % 2 ^ 32
  let b2 ← index p.data (p.position + 2)
  let chunkSize := (chunkSize + b2 % 2 ^ 32) % 2 ^ 32
  let chunkSize := (chunkSize <<< 8) % 2 ^ 32
  let b3 ← index p.data (p.position + 3)
  let chunkSize := (chunkSize + b3 % 2 ^ 32) % 2 ^ 32
  pure chunkSize

/-- The `for` loop of `Parser.parseTracks` with `k` iterations left; `tracks`
holds the tracks stored so far, in the order of their index. `none` only when a
call of `parseTrack` is `none`. -/
def parseTracksLoop : Nat → Parser → List Track → Option (Except Failure (List Track × Parser))
  | 0, p, tracks => some (.ok (tracks, p))
  | k + 1, p, tracks =>
    match slice p.data p.position (p.position + 4) with
    | .error e => some (.error e)
    | .ok mtrk =>
      if mtrk ≠ MTrk then some (.error .invalidTrackID)
      else
        let p1 : Parser := { p with position := p.position + 4 }
        match readChunkSize p1 with
        | .error e => some (.error e)
        | .ok chunkSize =>
          let p2 : Parser := { p1 with position := p1.position + 4 }
          match p2.parseTrack with
          | none => none
          | some (.error e) => some (.error e)
          | some (.ok (track, p3)) =>
            parseTracksLoop k { p3 with position := p3.position + chunkSize } (tracks ++ [track])

/-- The method `Parser.parseTracks`. -/
def Parser.parseTracks (p : Parser) (numberOfTracks : Nat) :
    Option (Except Failure (List Track × Parser)) :=
  parseTracksLoop numberOfTracks p []

/-- One turn of the loop of `Parser.parseTracks` on the chunk at the cursor (the
body of the `for`, parser.go 115-143): the track stored in `tracks[n]` and the
parser after `p.position += int(chunkSize)`, or the failure that ends the loop. -/
def parseChunk (p : Parser) : Option (Except Failure (Track × Parser)) :=
  match slice p.data p.position (p.position + 4) with
  | .error e => some (.error e)
  | .ok mtrk =>
    if mtrk ≠ MTrk then some (.error .invalidTrackID)
    else
      let p1 : Parser := { p with position := p.position + 4 }
      match readChunkSize p1 with
      | .error e => some (.error e)
      | .ok chunkSize =>
        let p2 : Parser := { p1 with position := p1.position + 4 }
        match p2.parseTrack with
        | none => none
        | some (.error e) => some (.error e)
        | some (.ok (track, p3)) =>
          some (.ok (track, { p3 with position := p3.position + chunkSize }))

/-- The parser at which the chunk with index `i` is read: the state after `i`
turns of the loop of `parseTracks` that all stored a track; `none` when one of
them did not. -/
def cursorAfterChunks : Nat → Parser → Option Parser
  | 0, p => some p
  | i + 1, p =>
    match parseChunk p with
    | some (.ok (_, q)) => cursorAfterChunks i q
    | _ => none

/-- Modelled from the spec: the struct `TimeDivision`, declared outside the listed
sources, "a 16-bit time-division value". -/
structure TimeDivision where
  value : Nat
  deriving DecidableEq, Repr

/-- Modelled from the spec: the struct `MIDI`, declared outside the listed sources,
with the three fields `Parse` fills in. -/
structure MIDI where
  formatType : Nat
  timeDivision : TimeDivision
  Tracks : List Track
  deriving DecidableEq, Repr

/-- The method `Parser.Parse`; the `stream` argument is only logged. -/
def Parser.Parse (p : Parser) : Option (Except Failure (MIDI × Parser)) :=
  match p.parseHeader with
  | .error e => some (.error e)
  | .ok ((formatType, numberOfTracks, timeDivision), p1) =>
    match p1.parseTracks numberOfTracks with
    | none => none
    | some (.error e) => some (.error e)
    | some (.ok (tracks, p2)) =>
      some (.ok ({ formatType := formatType, timeDivision := ⟨timeDivision⟩, Tracks := tracks }, p2))

/-! ## The variable-length quantity -/

/-- The loop leaves at index `i + n` exactly when `n` is the first position of
`rest` holding a byte below `0x80` and `i + n` is at most 3. -/
theorem parseQuantityLoop_ok_iff (rest : List Nat) (i k : Nat) :
    parseQuantityLoop rest i = .ok k ↔
      ∃ n, k = i + n ∧ i + n ≤ 3 ∧ (∃ b, rest[n]? = some b ∧ b < 0x80) ∧
        ∀ j, j < n → ∀ c, rest[j]? = some c → 0x80 ≤ c := by
  induction rest generalizing i with
  | nil =>
    unfold parseQuantityLoop
    by_cases hi : i > 3 <;> simp [hi]
  | cons b tl ih =>
    unfold parseQuantityLoop
    by_cases hi : i > 3
    · simp only [hi, if_true]
      constructor
      · intro h; cases h
      · rintro ⟨n, -, hn, -⟩; omega
    · simp only [hi, if_false]
      by_cases hb : b < 0x80
      · simp only [hb, if_true]
        constructor
        · intro h
          injection h with h
          exact ⟨0, by omega, by omega, ⟨b, by simp, hb⟩, by intro j hj; omega⟩
        · rintro ⟨n, hk, -, -, hall⟩
          cases n with
          | zero => simp [hk]
          | succ n =>
            have := hall 0 (by omega) b (by simp)
            omega
      · simp only [hb, if_false]
        rw [ih (i + 1)]
        constructor
        · rintro ⟨n, hk, hn, ⟨c, hc, hlt⟩, hall⟩
          refine ⟨n + 1, by omega, by omega, ⟨c, by simpa using hc, hlt⟩, ?_⟩
          intro j hj d hd
          cases j with
          | zero =>
            simp at hd
            omega
          | succ j => exact hall j (by omega) d (by simpa using hd)
        · rintro ⟨n, hk, hn, ⟨c, hc, hlt⟩, hall⟩
          cases n with
          | zero =>
            simp at hc
            omega
          | succ n =>
            refine ⟨n, by omega, by omega, ⟨c, by simpa using hc, hlt⟩, ?_⟩
            intro j hj d hd
            exact hall (j + 1) (by omega) d (by simpa using hd)

/-- The method `parseQuantity` returns `q` exactly when some index `i <= 3` is the
first one holding a byte below `0x80` and `q` owns the bytes up to and including it. -/
theorem parseQuantity_ok_iff (p : Parser) (q : Quantity) :
    p.parseQuantity = .ok q ↔
      ∃ i, i ≤ 3 ∧ (∃ b, p.data[i]? = some b ∧ b < 0x80) ∧
        (∀ j, j < i → ∀ c, p.data[j]? = some c → 0x80 ≤ c) ∧ q.value = p.data.take (i + 1) := by
  unfold Parser.parseQuantity
  by_cases h0 : p.data.length = 0
  · have hnil : p.data = [] := List.length_eq_zero.mp h0
    simp [hnil]
  · simp only [h0, if_false]
    constructor
    · intro h
      cases hl : parseQuantityLoop p.data 0 with
      | error e => rw [hl] at h; cases h
      | ok k =>
        rw [hl] at h
        obtain ⟨n, hk, hn, ⟨b, hb, hlt⟩, hall⟩ := (parseQuantityLoop_ok_iff _ _ _).mp hl
        have hlen : n < p.data.length := by
          rcases List.getElem?_eq_some_iff.mp hb with ⟨hlen, -⟩
          exact hlen
        have hkn : k = n := by omega
        subst hkn
        have hz : k + 1 - p.data.length = 0 := by omega
        simp only [bind, Except.bind, pure, Except.pure, hz, List.replicate_zero,
          List.append_nil] at h
        injection h with h
        exact ⟨k, by omega, ⟨b, hb, hlt⟩, hall, by rw [← h]⟩
    · rintro ⟨i, hi, ⟨b, hb, hlt⟩, hall, hq⟩
      have hlen : i < p.data.length := by
        rcases List.getElem?_eq_some_iff.mp hb with ⟨hlen, -⟩
        exact hlen
      have hl : parseQuantityLoop p.data 0 = .ok i :=
        (parseQuantityLoop_ok_iff _ _ _).mpr ⟨i, by omega, by omega, ⟨b, hb, hlt⟩, hall⟩
      have hz : i + 1 - p.data.length = 0 := by omega
      rw [hl]
      simp only [bind, Except.bind, pure, Except.pure, hz, List.replicate_zero, List.append_nil]
      cases q
      simp only at hq
      rw [hq]

set_option maxRecDepth 100000 in
/-- A byte that is at least `0x80` has the bit `0x80` set. -/
theorem high_bit_set : ∀ b, b < 256 → 0x80 ≤ b → b &&& 0x80 = 0x80 := by decide

/-- A byte below `0x80` has the bit `0x80` clear. -/
theorem high_bit_clear : ∀ b, b < 0x80 → b &&& 0x80 = 0 := by decide

/-- When no byte below `0x80` is met before index 4 or the end of the buffer, the
loop returns an error: the size error when index 4 is reached, the missing-byte
error when the buffer ends first. -/
theorem parseQuantityLoop_error (rest : List Nat) (i : Nat)
    (h : ∀ b ∈ rest.take (4 - i), 0x80 ≤ b) :
    parseQuantityLoop rest i =
      .error (if 4 - i ≤ rest.length then .quantityTooLong else .missingNextByte) := by
  induction rest generalizing i with
  | nil =>
    unfold parseQuantityLoop
    by_cases hi : i > 3
    · have : 4 - i ≤ 0 := by omega
      simp [hi, this]
    · have : ¬ (4 - i = 0) := by omega
      simp [hi, this]
  | cons b tl ih =>
    unfold parseQuantityLoop
    by_cases hi : i > 3
    · have : 4 - i ≤ (b :: tl).length := by omega
      simp only [hi, if_true, this]
    · simp only [hi, if_false]
      have h4 : 4 - i = (4 - (i + 1)) + 1 := by omega
      rw [h4, List.take_succ_cons] at h
      have hb : ¬ b < 0x80 := by
        have := h b (by simp)
        omega
      simp only [hb, if_false]
      rw [ih (i + 1) (fun c hc => h c (List.mem_cons_of_mem _ hc))]
      by_cases hl : 4 - (i + 1) ≤ tl.length
      · have : 4 - i ≤ (b :: tl).length := by simp only [List.length_cons]; omega
        simp only [hl, this, if_true]
      · have : ¬ 4 - i ≤ (b :: tl).length := by simp only [List.length_cons]; omega
        simp only [hl, this, if_false]

/-- C9. Whenever `parseQuantity` succeeds, the bytes of the returned Quantity are
the prefix `data[0..i]` of the input, `i` being the least index with
`data[i] < 0x80`; the Quantity is 1 to 4 bytes long, each byte before the last has
the bit `0x80` set and the last has it clear; and `parseQuantity` succeeds exactly
when such an index `i <= 3` exists within the input. -/
theorem parseQuantity_result (p : Parser) (hbyte : ∀ b ∈ p.data, b < 256) :
    (∀ q, p.parseQuantity = .ok q →
      ∃ i, (∃ b, p.data[i]? = some b ∧ b < 0x80) ∧
        (∀ j, j < i → ∀ c, p.data[j]? = some c → 0x80 ≤ c) ∧
        q.value = p.data.take (i + 1) ∧
        q.value.length = i + 1 ∧ 1 ≤ q.value.length ∧ q.value.length ≤ 4 ∧
        (∀ j, j < i → ∃ c, q.value[j]? = some c ∧ c &&& 0x80 = 0x80) ∧
        (∃ c, q.value[i]? = some c ∧ c &&& 0x80 = 0)) ∧
    ((∃ q, p.parseQuantity = .ok q) ↔
      ∃ i, i ≤ 3 ∧ (∃ b, p.data[i]? = some b ∧ b < 0x80) ∧
        ∀ j, j < i → ∀ c, p.data[j]? = some c → 0x80 ≤ c) := by
  constructor
  · intro q hq
    obtain ⟨i, hi, ⟨b, hb, hlt⟩, hall, hval⟩ := (parseQuantity_ok_iff p q).mp hq
    have hlen : i < p.data.length := (List.getElem?_eq_some_iff.mp hb).1
    have hqlen : q.value.length = i + 1 := by
      rw [hval, List.length_take]
      omega
    refine ⟨i, ⟨b, hb, hlt⟩, hall, hval, hqlen, by omega, by omega, ?_, ?_⟩
    · intro j hj
      have hjl : j < p.data.length := by omega
      have hget : p.data[j]? = some p.data[j] := List.getElem?_eq_getElem hjl
      refine ⟨p.data[j], ?_, ?_⟩
      · rw [hval, List.getElem?_take_of_lt (by omega), hget]
      · exact high_bit_set _ (hbyte _ (List.getElem_mem hjl)) (hall j hj _ hget)
    · refine ⟨b, ?_, high_bit_clear b hlt⟩
      rw [hval, List.getElem?_take_of_lt (by omega), hb]
  · constructor
    · rintro ⟨q, hq⟩
      obtain ⟨i, hi, hb, hall, -⟩ := (parseQuantity_ok_iff p q).mp hq
      exact ⟨i, hi, hb, hall⟩
    · rintro ⟨i, hi, hb, hall⟩
      exact ⟨⟨p.data.take (i + 1)⟩, (parseQuantity_ok_iff p _).mpr ⟨i, hi, hb, hall, rfl⟩⟩

/-- C9 at the buffer `81 00 FF`: the two-byte quantity `81 00` is returned. -/
theorem parseQuantity_result_witness :
    (∀ b ∈ (NewParser [0x81, 0x00, 0xFF]).data, b < 256) ∧
    (NewParser [0x81, 0x00, 0xFF]).parseQuantity = .ok ⟨[0x81, 0x00]⟩ ∧
    ((∃ q, (NewParser [0x81, 0x00, 0xFF]).parseQuantity = .ok q) ↔
      ∃ i, i ≤ 3 ∧ (∃ b, (NewParser [0x81, 0x00, 0xFF]).data[i]? = some b ∧ b < 0x80) ∧
        ∀ j, j < i → ∀ c, (NewParser [0x81, 0x00, 0xFF]).data[j]? = some c → 0x80 ≤ c) :=
  ⟨by decide, by decide, (parseQuantity_result (NewParser [0x81, 0x00, 0xFF]) (by decide)).2⟩

/-- C10. `parseQuantity` returns an error and no Quantity (a) when the first four
bytes of the input all have the continuation bit set, and (b) when the input,
the empty one included, ends before a byte with the bit clear is found. -/
theorem parseQuantity_failures (p : Parser) :
    ((4 ≤ p.data.length ∧ ∀ b ∈ p.data.take 4, 0x80 ≤ b) →
      p.parseQuantity = .error .quantityTooLong ∧ ∀ q, p.parseQuantity ≠ .ok q) ∧
    ((∀ b ∈ p.data, 0x80 ≤ b) →
      (p.data = [] → p.parseQuantity = .error .emptyStream) ∧
      (p.data ≠ [] → p.data.length < 4 → p.parseQuantity = .error .missingNextByte) ∧
      (∃ e, p.parseQuantity = .error e ∧ e ≠ .outOfRange) ∧ ∀ q, p.parseQuantity ≠ .ok q) := by
  have key : (∀ b ∈ p.data.take 4, 0x80 ≤ b) →
      p.parseQuantity = .error (if p.data.length = 0 then .emptyStream
        else if 4 ≤ p.data.length then .quantityTooLong else .missingNextByte) := by
    intro h
    unfold Parser.parseQuantity
    by_cases h0 : p.data.length = 0
    · simp only [h0, if_true]
    · simp only [h0, if_false]
      rw [parseQuantityLoop_error p.data 0 h]
      rfl
  constructor
  · rintro ⟨hlen, h⟩
    have hk := key h
    have h0 : ¬ p.data.length = 0 := by omega
    simp only [h0, if_false, hlen, if_true] at hk
    exact ⟨hk, fun q hq => by rw [hk] at hq; cases hq⟩
  · intro h
    have hk := key (fun b hb => h b (List.mem_of_mem_take hb))
    refine ⟨?_, ?_, ?_, ?_⟩
    · intro hnil
      simpa [hnil] using hk
    · intro hne hlt
      have h0 : ¬ p.data.length = 0 := fun h0 => hne (List.length_eq_zero.mp h0)
      have h4 : ¬ 4 ≤ p.data.length := by omega
      simpa only [h0, h4, if_false] using hk
    · refine ⟨_, hk, ?_⟩
      split_ifs <;> simp
    · intro q hq
      rw [hk] at hq
      cases hq

/-- C10 at the buffers `81 80 80 80 00` (a fifth byte would be needed) and `81 80`
(the input ends first). -/
theorem parseQuantity_failures_witness :
    ((4 ≤ (NewParser [0x81, 0x80, 0x80, 0x80, 0x00]).data.length ∧
        ∀ b ∈ (NewParser [0x81, 0x80, 0x80, 0x80, 0x00]).data.take 4, 0x80 ≤ b) ∧
      (NewParser [0x81, 0x80, 0x80, 0x80, 0x00]).parseQuantity = .error .quantityTooLong) ∧
    ((∀ b ∈ (NewParser [0x81, 0x80]).data, 0x80 ≤ b) ∧
      (NewParser [0x81, 0x80]).parseQuantity = .error .missingNextByte) :=
  ⟨⟨by decide,
    ((parseQuantity_failures (NewParser [0x81, 0x80, 0x80, 0x80, 0x00])).1 (by decide)).1⟩,
   ⟨by decide,
    ((parseQuantity_failures (NewParser [0x81, 0x80])).2 (by decide)).2.1 (by decide)
      (by decide)⟩⟩

/-! ## The track loop leaves within its iteration bound -/

/-- A successful `parseMetaEvent` reports a size of at least 2 and changes only
the previous status. -/
theorem parseMetaEvent_ok (p : Parser) (deltaTime : DeltaTime) (r : Parsed)
    (h : p.parseMetaEvent deltaTime = .ok r) :
    2 ≤ r.2.1 ∧ r.2.2 = { p with previousEventType := Meta } := by
  unfold Parser.parseMetaEvent at h
  cases hq : p.parseQuantity with
  | error e => simp [hq, bind, Except.bind] at h
  | ok q =>
    cases hi : index p.data 1 with
    | error e => simp [hq, hi, bind, Except.bind] at h
    | ok t =>
      cases hs : slice p.data (2 + q.value.length) (2 + q.value.length + q.Uint32) with
      | error e => simp [hq, hi, hs, bind, Except.bind] at h
      | ok d =>
        cases hb : buildMetaEvent deltaTime t d with
        | error e => simp [hq, hi, hs, hb, bind, Except.bind] at h
        | ok ev =>
          simp only [hq, hi, hs, hb, bind, Except.bind, pure, Except.pure] at h
          injection h with h
          subst h
          exact ⟨by simp only; omega, rfl⟩

/-- A successful `parseSystemExclusiveEvent` reports a size of at least 1 and
changes only the previous status. -/
theorem parseSystemExclusiveEvent_ok (p : Parser) (deltaTime : DeltaTime) (r : Parsed)
    (h : p.parseSystemExclusiveEvent deltaTime = .ok r) :
    1 ≤ r.2.1 ∧ ∃ s, r.2.2 = { p with previousEventType := s } := by
  unfold Parser.parseSystemExclusiveEvent at h
  cases hq : p.parseQuantity with
  | error e => simp [hq, bind, Except.bind] at h
  | ok q =>
    cases hi : index p.data 0 with
    | error e => simp [hq, hi, bind, Except.bind] at h
    | ok t =>
      simp only [hq, hi, bind, Except.bind, pure, Except.pure] at h
      repeat' split at h
      all_goals first
        | (cases h; exact ⟨by simp only; omega, t, rfl⟩)
        | cases h

/-- A successful `parseMIDIControlEvent` reports a size of at least 2 and changes
only the previous status. -/
theorem parseMIDIControlEvent_ok (p : Parser) (deltaTime : DeltaTime) (eventType : Nat)
    (r : Parsed) (h : p.parseMIDIControlEvent deltaTime eventType = .ok r) :
    2 ≤ r.2.1 ∧ r.2.2 = { p with previousEventType := eventType } := by
  unfold Parser.parseMIDIControlEvent at h
  cases hs : slice p.data 1 3 with
  | error e => simp [hs, bind, Except.bind] at h
  | ok d =>
    cases hb : buildMIDIControlEvent p deltaTime eventType d (eventType &&& 0x0f) with
    | error e => simp [hs, hb, bind, Except.bind] at h
    | ok ev =>
      obtain ⟨ev, n⟩ := ev
      simp only [hs, hb, bind, Except.bind, pure, Except.pure] at h
      injection h with h
      subst h
      have hn : 2 ≤ n := by
        unfold buildMIDIControlEvent at hb
        simp only [bind, Except.bind, pure, Except.pure] at hb
        repeat' split at hb
        all_goals first
          | (cases hb; omega)
          | cases hb
      exact ⟨by simp only; omega, rfl⟩

/-- A successful `parseEvent` reports a positive size and leaves the buffer and
the cursor as they were. -/
theorem parseEvent_ok (p : Parser) (r : Parsed) (h : p.parseEvent = .ok r) :
    1 ≤ r.2.1 ∧ r.2.2.data = p.data ∧ r.2.2.position = p.position := by
  unfold Parser.parseEvent at h
  cases hd : p.parseDeltaTime with
  | error e => simp [hd, bind, Except.bind] at h
  | ok dt =>
    cases hi : index p.data dt.quantity.value.length with
    | error e => simp [hd, hi, bind, Except.bind] at h
    | ok t =>
      simp only [hd, hi, bind, Except.bind] at h
      have key : ∀ et : Nat,
          (if et = Meta then p.parseMetaEvent dt
            else if et = SystemExclusive ∨ et = DividedSystemExclusive then
              p.parseSystemExclusiveEvent dt
            else p.parseMIDIControlEvent dt et) = .ok r →
          1 ≤ r.2.1 ∧ r.2.2.data = p.data ∧ r.2.2.position = p.position := by
        intro et het
        split at het
        · obtain ⟨h1, h2⟩ := parseMetaEvent_ok p dt r het
          rw [h2]
          exact ⟨by omega, rfl, rfl⟩
        · split at het
          · obtain ⟨h1, s, h2⟩ := parseSystemExclusiveEvent_ok p dt r het
            rw [h2]
            exact ⟨h1, rfl, rfl⟩
          · obtain ⟨h1, h2⟩ := parseMIDIControlEvent_ok p dt _ r het
            rw [h2]
            exact ⟨by omega, rfl, rfl⟩
      exact key _ h

/-- The loop of `parseTrack` leaves (with a track or an error) once it is given
more iterations than there are bytes from the cursor to the end of the buffer. -/
theorem parseTrackLoop_leaves (fuel : Nat) (p : Parser) (track : Track)
    (h : p.data.length - p.position < fuel) :
    ∃ r, parseTrackLoop fuel p track = some r := by
  induction fuel generalizing p track with
  | zero => omega
  | succ fuel ih =>
    unfold parseTrackLoop
    by_cases hpos : p.position ≥ p.data.length
    · rw [if_pos hpos]
      exact ⟨_, rfl⟩
    · rw [if_neg hpos]
      cases hev : p.parseEvent with
      | error e => exact ⟨_, rfl⟩
      | ok r =>
        obtain ⟨event, sizeOfEvent, p1⟩ := r
        obtain ⟨hsz, hdata, hp⟩ := parseEvent_ok p _ hev
        simp only at hsz hdata hp
        simp only
        split
        · exact ⟨_, rfl⟩
        · apply ih
          simp only [hdata, hp]
          omega

/-- The method `parseTrack` returns on every parser state. -/
theorem parseTrack_returns (p : Parser) : ∃ r, p.parseTrack = some r :=
  parseTrackLoop_leaves _ p _ (by omega)

/-! ## Events read from the start of the buffer -/

/-- C1. Round trip of an InstrumentNameEvent through `Serialize` and `parseEvent`,
evaluated at delta-time `00` and text "text": the serialized bytes are
`00 FF 04 04 74 65 78 74`, and `parseEvent` on them returns an AlienEvent with
type `0xFF`, no data, and size 4, not the InstrumentNameEvent with size 8. -/
theorem parseEvent_serialize_instrumentName :
    NewInstrumentNameEvent ⟨⟨[0x00]⟩⟩ [0x74, 0x65, 0x78, 0x74] =
      .ok ⟨⟨⟨[0x00]⟩⟩, [0x74, 0x65, 0x78, 0x74]⟩ ∧
    (InstrumentNameEvent.mk ⟨⟨[0x00]⟩⟩ [0x74, 0x65, 0x78, 0x74]).Serialize =
      [0x00, 0xff, 0x04, 0x04, 0x74, 0x65, 0x78, 0x74] ∧
    (NewParser (InstrumentNameEvent.mk ⟨⟨[0x00]⟩⟩ [0x74, 0x65, 0x78, 0x74]).Serialize).parseEvent =
      .ok (some (.AlienEvent ⟨⟨[0x00]⟩⟩ 0xff []), 4,
        ⟨[0x00, 0xff, 0x04, 0x04, 0x74, 0x65, 0x78, 0x74], 0, 0xff⟩) := by
  decide

/-- C2. The cursor is not used by `parseEvent`: on the buffer
`00 90 3C 40 00 80 3D 41` with the cursor at 4 it returns the event read at index
0 (a NoteOn), while on the suffix `00 80 3D 41` with the cursor at 0 it returns a
NoteOff. -/
theorem parseEvent_cursor_unused :
    (Parser.mk [0x00, 0x90, 0x3c, 0x40, 0x00, 0x80, 0x3d, 0x41] 4 0).parseEvent =
      .ok (some (.NoteOnEvent ⟨⟨[0x00]⟩⟩ 0 0x90 0x3c), 4,
        ⟨[0x00, 0x90, 0x3c, 0x40, 0x00, 0x80, 0x3d, 0x41], 4, 0x90⟩) ∧
    (Parser.mk ([0x00, 0x90, 0x3c, 0x40, 0x00, 0x80, 0x3d, 0x41].drop 4) 0 0).parseEvent =
      .ok (some (.NoteOffEvent ⟨⟨[0x00]⟩⟩ 0 0x80 0x3d), 4, ⟨[0x00, 0x80, 0x3d, 0x41], 0, 0x80⟩) := by
  decide

/-- C3. Track bodies of Text events closed by `00 FF 2F 00`: `parseTrack` returns
the missing-end-of-track error on the minimal body `00 FF 2F 00` (no text) and on
the body of `TestParseTrack` (two texts), where three events are expected. -/
theorem parseTrack_text_bodies :
    (NewParser [0x00, 0xff, 0x2f, 0x00]).parseTrack = some (.error .missingEndOfTrack) ∧
    (NewParser
      ([0x00, 0xff, 0x01, 0x0b, 0x74, 0x65, 0x78, 0x74, 0x20, 0x65, 0x76, 0x65, 0x6e, 0x74, 0x31] ++
       [0x00, 0xff, 0x01, 0x0b, 0x74, 0x65, 0x78, 0x74, 0x20, 0x65, 0x76, 0x65, 0x6e, 0x74, 0x32] ++
       [0x00, 0xff, 0x2f, 0x00])).parseTrack = some (.error .missingEndOfTrack) := by
  decide

/-- C4. Meta-event decoding at the bytes `00 FF 01 04 74 65 78 74`: `parseEvent`
returns an AlienEvent with type `0xFF`, empty data and size 4, where a TextEvent
with text "text" and size 8 is expected. -/
theorem parseEvent_text_meta :
    (NewParser [0x00, 0xff, 0x01, 0x04, 0x74, 0x65, 0x78, 0x74]).parseEvent =
      .ok (some (.AlienEvent ⟨⟨[0x00]⟩⟩ 0xff []), 4,
        ⟨[0x00, 0xff, 0x01, 0x04, 0x74, 0x65, 0x78, 0x74], 0, 0xff⟩) := by
  decide

/-- C5. Running status at `s = 0x90`, `a = 0x3C`, `b = 0x40`, delta-time `00`:
with the status omitted `parseEvent` returns NoteOn note `0x3C` velocity `0x40`
and size 4; with the status written it returns NoteOn note `0x90` velocity `0x3C`
and size 4. The events differ and the sizes are equal. -/
theorem parseEvent_running_status :
    (Parser.mk [0x00, 0x3c, 0x40] 0 0x90).parseEvent =
      .ok (some (.NoteOnEvent ⟨⟨[0x00]⟩⟩ 0 0x3c 0x40), 4, ⟨[0x00, 0x3c, 0x40], 0, 0x90⟩) ∧
    (Parser.mk [0x00, 0x90, 0x3c, 0x40] 0 0).parseEvent =
      .ok (some (.NoteOnEvent ⟨⟨[0x00]⟩⟩ 0 0x90 0x3c), 4, ⟨[0x00, 0x90, 0x3c, 0x40], 0, 0x90⟩) := by
  decide

/-- C6. Channel-event decoding at the bytes `00 90 3C 40`: `parseEvent` returns a
NoteOn on channel 0 with note `0x90` (the status byte) and velocity `0x3C`, where
note `0x3C` and velocity `0x40` are expected; the size is 4. -/
theorem parseEvent_note_on :
    (NewParser [0x00, 0x90, 0x3c, 0x40]).parseEvent =
      .ok (some (.NoteOnEvent ⟨⟨[0x00]⟩⟩ 0 0x90 0x3c), 4, ⟨[0x00, 0x90, 0x3c, 0x40], 0, 0x90⟩) := by
  decide

/-- C7. System-exclusive decoding at the bytes `00 F0 01 AA` and `00 F7 01 AA`:
`parseEvent` returns a nil event, size 3 and previous status `0x00`, where an
event with data `AA`, size 4 and previous status `0xF0`, `0xF7` is expected. -/
theorem parseEvent_system_exclusive :
    (NewParser [0x00, 0xf0, 0x01, 0xaa]).parseEvent =
      .ok (none, 3, ⟨[0x00, 0xf0, 0x01, 0xaa], 0, 0x00⟩) ∧
    (NewParser [0x00, 0xf7, 0x01, 0xaa]).parseEvent =
      .ok (none, 3, ⟨[0x00, 0xf7, 0x01, 0xaa], 0, 0x00⟩) := by
  decide

/-- C8. PitchBend value. At the parameter bytes `01 00` sent under the running
status `0xE0` (buffer `00 01 00`) the pitch built is 128, the first byte shifted
into the high 7 bits, where `(0x01 & 0x7F) + ((0x00 & 0x7F) << 7) = 1` is expected.
At the bytes `00 E0 00 40`, with the status written, the pitch is 12288, built
from the status byte and the first parameter byte, where
`(0x00 & 0x7F) + ((0x40 & 0x7F) << 7) = 8192` is expected. -/
theorem pitchBend_first_byte_low_fails :
    (Parser.mk [0x00, 0x01, 0x00] 0 0xe0).parseMIDIControlEvent ⟨⟨[0x00]⟩⟩ 0xe0 =
      .ok (some (.PitchBendEvent ⟨⟨[0x00]⟩⟩ 0 128), 4, ⟨[0x00, 0x01, 0x00], 0, 0xe0⟩) ∧
    (128 : Nat) ≠ (0x01 &&& 0x7f) + ((0x00 &&& 0x7f) <<< 7) ∧
    (Parser.mk [0x00, 0x01, 0x00] 0 0xe0).parseEvent =
      .ok (some (.PitchBendEvent ⟨⟨[0x00]⟩⟩ 0 128), 4, ⟨[0x00, 0x01, 0x00], 0, 0xe0⟩) ∧
    (NewParser [0x00, 0xe0, 0x00, 0x40]).parseEvent =
      .ok (some (.PitchBendEvent ⟨⟨[0x00]⟩⟩ 0 12288), 4, ⟨[0x00, 0xe0, 0x00, 0x40], 0, 0xe0⟩) ∧
    (12288 : Nat) ≠ (0x00 &&& 0x7f) + ((0x40 &&& 0x7f) <<< 7) := by
  decide

/-- The pitch `parseMIDIControlEvent` builds for a status byte with top nibble
`0xE` from the two bytes `p0`, `p1` of its slice `p.data[1:3]` is
`((p0 & 0x7F) << 7) + (p1 & 0x7F)`, with the first byte in the high 7 bits; it is
below `2^14`. -/
theorem parseMIDIControlEvent_pitchBend (p : Parser) (deltaTime : DeltaTime)
    (eventType p0 p1 : Nat) (hty : eventType &&& 0xf0 = PitchBend)
    (hpar : slice p.data 1 3 = .ok [p0, p1]) :
    p.parseMIDIControlEvent deltaTime eventType =
      .ok (some (.PitchBendEvent deltaTime (eventType &&& 0x0f)
          (((p0 &&& 0x7f) <<< 7) + (p1 &&& 0x7f))),
        deltaTime.quantity.Value.length + 3, { p with previousEventType := eventType }) ∧
    ((p0 &&& 0x7f) <<< 7) + (p1 &&& 0x7f) < 2 ^ 14 := by
  have h0 : p0 &&& 0x7f ≤ 0x7f := Nat.and_le_right
  have h1 : p1 &&& 0x7f ≤ 0x7f := Nat.and_le_right
  have hs : (p0 &&& 0x7f) <<< 7 = (p0 &&& 0x7f) * 128 := by rw [Nat.shiftLeft_eq]
  have hlt : ((p0 &&& 0x7f) <<< 7) + (p1 &&& 0x7f) < 2 ^ 14 := by rw [hs]; omega
  refine ⟨?_, hlt⟩
  unfold Parser.parseMIDIControlEvent
  rw [hpar]
  simp only [bind, Except.bind, buildMIDIControlEvent, hty, PitchBend, NoteOff, NoteOn,
    NoteAfterTouch, Controller, ProgramChange, ChannelAfterTouch, index, pure, Except.pure]
  have hlt16 : ((p0 &&& 0x7f) <<< 7) + (p1 &&& 0x7f) < 65536 := by omega
  have hlt16a : (p0 &&& 0x7f) <<< 7 < 65536 := by omega
  simp [Nat.mod_eq_of_lt hlt16, Nat.mod_eq_of_lt hlt16a]

/-- The pitch built at the buffer `00 01 00` with status `0xE0` is 128. -/
theorem parseMIDIControlEvent_pitchBend_witness :
    (0xe0 &&& 0xf0 = PitchBend ∧ slice (Parser.mk [0x00, 0x01, 0x00] 0 0xe0).data 1 3 = .ok [1, 0]) ∧
    (Parser.mk [0x00, 0x01, 0x00] 0 0xe0).parseMIDIControlEvent ⟨⟨[0x00]⟩⟩ 0xe0 =
      .ok (some (.PitchBendEvent ⟨⟨[0x00]⟩⟩ (0xe0 &&& 0x0f) (((1 &&& 0x7f) <<< 7) + (0 &&& 0x7f))),
        (DeltaTime.mk ⟨[0x00]⟩).quantity.Value.length + 3,
        { (Parser.mk [0x00, 0x01, 0x00] 0 0xe0) with previousEventType := 0xe0 }) :=
  ⟨by decide,
   (parseMIDIControlEvent_pitchBend (Parser.mk [0x00, 0x01, 0x00] 0 0xe0) ⟨⟨[0x00]⟩⟩ 0xe0 1 0
      (by decide) (by decide)).1⟩

/-! ## Padding bytes in a quantity -/

/-- The shapes of a Quantity returned by `parseQuantity`: one to four bytes copied
from the front of the buffer, all but the last at least `0x80`, the last below. -/
theorem parseQuantity_shape (p : Parser) (q : Quantity) (h : p.parseQuantity = .ok q) :
    (∃ b0 t, p.data = b0 :: t ∧ q.value = [b0] ∧ b0 < 0x80) ∨
    (∃ b0 b1 t, p.data = b0 :: b1 :: t ∧ q.value = [b0, b1] ∧ 0x80 ≤ b0 ∧ b1 < 0x80) ∨
    (∃ b0 b1 b2 t, p.data = b0 :: b1 :: b2 :: t ∧ q.value = [b0, b1, b2] ∧
      0x80 ≤ b0 ∧ 0x80 ≤ b1 ∧ b2 < 0x80) ∨
    (∃ b0 b1 b2 b3 t, p.data = b0 :: b1 :: b2 :: b3 :: t ∧ q.value = [b0, b1, b2, b3] ∧
      0x80 ≤ b0 ∧ 0x80 ≤ b1 ∧ 0x80 ≤ b2 ∧ b3 < 0x80) := by
  obtain ⟨i, hi, ⟨b, hb, hlt⟩, hall, hval⟩ := (parseQuantity_ok_iff p q).mp h
  obtain ⟨data, pos, prev⟩ := p
  simp only at hb hall hval ⊢
  have hi4 : i = 0 ∨ i = 1 ∨ i = 2 ∨ i = 3 := by omega
  rcases hi4 with rfl | rfl | rfl | rfl
  · rcases data with _ | ⟨b0, t⟩
    · simp at hb
    · left
      simp at hb
      exact ⟨b0, t, rfl, by simpa using hval, by omega⟩
  · rcases data with _ | ⟨b0, _ | ⟨b1, t⟩⟩
    · simp at hb
    · simp at hb
    · right; left
      simp at hb
      have h0 := hall 0 (by omega) b0 (by simp)
      exact ⟨b0, b1, t, rfl, by simpa using hval, h0, by omega⟩
  · rcases data with _ | ⟨b0, _ | ⟨b1, _ | ⟨b2, t⟩⟩⟩
    · simp at hb
    · simp at hb
    · simp at hb
    · right; right; left
      simp at hb
      have h0 := hall 0 (by omega) b0 (by simp)
      have h1 := hall 1 (by omega) b1 (by simp)
      exact ⟨b0, b1, b2, t, rfl, by simpa using hval, h0, h1, by omega⟩
  · rcases data with _ | ⟨b0, _ | ⟨b1, _ | ⟨b2, _ | ⟨b3, t⟩⟩⟩⟩
    · simp at hb
    · simp at hb
    · simp at hb
    · simp at hb
    · right; right; right
      simp at hb
      have h0 := hall 0 (by omega) b0 (by simp)
      have h1 := hall 1 (by omega) b1 (by simp)
      have h2 := hall 2 (by omega) b2 (by simp)
      exact ⟨b0, b1, b2, b3, t, rfl, by simpa using hval, h0, h1, h2, by omega⟩

/-- C11 as stated fails: on the buffer `80 00` both `parseQuantity` and
`parseDeltaTime` return the two bytes `80 00`, a quantity longer than one byte
whose first byte is the padding byte `0x80`. -/
theorem parseQuantity_keeps_padding :
    (NewParser [0x80, 0x00]).parseQuantity = .ok ⟨[0x80, 0x00]⟩ ∧
    (NewParser [0x80, 0x00]).parseDeltaTime = .ok ⟨⟨[0x80, 0x00]⟩⟩ ∧
    1 < (Quantity.mk [0x80, 0x00]).value.length ∧
    (Quantity.mk [0x80, 0x00]).value.head? = some 0x80 := by
  decide

/-- C11 amended. Every Quantity (and hence every DeltaTime) that `parseQuantity` /
`parseDeltaTime` returns starts with the first byte of the input, unchanged; when
that byte is not `0x80` the Quantity holds the minimal encoding of its value: it
has no padding byte (when longer than one byte its first byte is not `0x80`) and
it is the byte form the encoder gives for its value. -/
theorem parseQuantity_minimal (p : Parser) (q : Quantity) (hbyte : ∀ b ∈ p.data, b < 256)
    (h : p.parseQuantity = .ok q) :
    p.parseDeltaTime = .ok ⟨q⟩ ∧ q.value.head? = p.data.head? ∧
    (p.data.head? ≠ some 0x80 →
      (1 < q.value.length → q.value.head? ≠ some 0x80) ∧
      (Quantity.mk []).SetUint32 q.Uint32 = q) := by
  refine ⟨by simp [Parser.parseDeltaTime, h, bind, Except.bind, pure, Except.pure], ?_⟩
  obtain ⟨value⟩ := q
  rcases parseQuantity_shape p _ h with
    ⟨b0, t, hd, hv, h0⟩ | ⟨b0, b1, t, hd, hv, h0, h1⟩ | ⟨b0, b1, b2, t, hd, hv, h0, h1, h2⟩ |
    ⟨b0, b1, b2, b3, t, hd, hv, h0, h1, h2, h3⟩
  all_goals
    simp only at hv
    subst hv
    rw [hd] at hbyte ⊢
    refine ⟨by simp, ?_⟩
    intro hne
    refine ⟨fun _ => by simpa using hne, ?_⟩
    have hne0 : b0 ≠ 0x80 := by simpa using hne
    have hb0 := hbyte b0 (by simp)
  · have hU : (Quantity.mk [b0]).Uint32 = b0 := by
      simp only [Quantity.Uint32, Quantity.Value, List.length_cons, List.length_nil,
        List.foldl_cons, List.foldl_nil]
      simp
      omega
    rw [hU]
    simp only [Quantity.SetUint32, h0, if_true]
  · have hb1 := hbyte b1 (by simp)
    have hU : (Quantity.mk [b0, b1]).Uint32 = b0 % 128 * 128 + b1 := by
      simp only [Quantity.Uint32, Quantity.Value, List.length_cons, List.length_nil,
        List.foldl_cons, List.foldl_nil]
      simp
      omega
    rw [hU]
    have c1 : ¬ b0 % 128 * 128 + b1 < 0x80 := by omega
    have c2 : b0 % 128 * 128 + b1 < 0x4000 := by omega
    have e0 : 0x80 + (b0 % 128 * 128 + b1) / 0x80 = b0 := by omega
    have e1 : (b0 % 128 * 128 + b1) % 0x80 = b1 := by omega
    simp only [Quantity.SetUint32, c1, c2, if_true, if_false, e0, e1]
  · have hb1 := hbyte b1 (by simp)
    have hb2 := hbyte b2 (by simp)
    have hU : (Quantity.mk [b0, b1, b2]).Uint32 = (b0 % 128 * 128 + b1 % 128) * 128 + b2 := by
      simp only [Quantity.Uint32, Quantity.Value, List.length_cons, List.length_nil,
        List.foldl_cons, List.foldl_nil]
      simp
      omega
    rw [hU]
    have c1 : ¬ (b0 % 128 * 128 + b1 % 128) * 128 + b2 < 0x80 := by omega
    have c2 : ¬ (b0 % 128 * 128 + b1 % 128) * 128 + b2 < 0x4000 := by omega
    have c3 : (b0 % 128 * 128 + b1 % 128) * 128 + b2 < 0x200000 := by omega
    have e0 : 0x80 + ((b0 % 128 * 128 + b1 % 128) * 128 + b2) / 0x4000 = b0 := by omega
    have e1 : 0x80 + ((b0 % 128 * 128 + b1 % 128) * 128 + b2) / 0x80 % 0x80 = b1 := by omega
    have e2 : ((b0 % 128 * 128 + b1 % 128) * 128 + b2) % 0x80 = b2 := by omega
    simp only [Quantity.SetUint32, c1, c2, c3, if_true, if_false, e0, e1, e2]
  · have hb1 := hbyte b1 (by simp)
    have hb2 := hbyte b2 (by simp)
    have hb3 := hbyte b3 (by simp)
    have hU : (Quantity.mk [b0, b1, b2, b3]).Uint32 =
        ((b0 % 128 * 128 + b1 % 128) * 128 + b2 % 128) * 128 + b3 := by
      simp only [Quantity.Uint32, Quantity.Value, List.length_cons, List.length_nil,
        List.foldl_cons, List.foldl_nil]
      simp
      omega
    rw [hU]
    have c1 : ¬ ((b0 % 128 * 128 + b1 % 128) * 128 + b2 % 128) * 128 + b3 < 0x80 := by omega
    have c2 : ¬ ((b0 % 128 * 128 + b1 % 128) * 128 + b2 % 128) * 128 + b3 < 0x4000 := by omega
    have c3 : ¬ ((b0 % 128 * 128 + b1 % 128) * 128 + b2 % 128) * 128 + b3 < 0x200000 := by
      omega
    have c4 : ((b0 % 128 * 128 + b1 % 128) * 128 + b2 % 128) * 128 + b3 < 0x10000000 := by
      omega
    have e0 : 0x80 + (((b0 % 128 * 128 + b1 % 128) * 128 + b2 % 128) * 128 + b3) / 0x200000
        = b0 := by omega
    have e1 : 0x80 + (((b0 % 128 * 128 + b1 % 128) * 128 + b2 % 128) * 128 + b3) / 0x4000 % 0x80
        = b1 := by omega
    have e2 : 0x80 + (((b0 % 128 * 128 + b1 % 128) * 128 + b2 % 128) * 128 + b3) / 0x80 % 0x80
        = b2 := by omega
    have e3 : (((b0 % 128 * 128 + b1 % 128) * 128 + b2 % 128) * 128 + b3) % 0x80 = b3 := by
      omega
    simp only [Quantity.SetUint32, c1, c2, c3, c4, if_true, if_false, e0, e1, e2, e3]

/-- C11 amended, at the buffer `81 00 FF`: the quantity `81 00` is returned, it has
no padding byte and the encoder gives the same two bytes for its value 128. -/
theorem parseQuantity_minimal_witness :
    ((∀ b ∈ (NewParser [0x81, 0x00, 0xff]).data, b < 256) ∧
      (NewParser [0x81, 0x00, 0xff]).parseQuantity = .ok ⟨[0x81, 0x00]⟩ ∧
      (NewParser [0x81, 0x00, 0xff]).data.head? ≠ some 0x80) ∧
    (1 < (Quantity.mk [0x81, 0x00]).value.length →
      (Quantity.mk [0x81, 0x00]).value.head? ≠ some 0x80) ∧
    (Quantity.mk []).SetUint32 (Quantity.mk [0x81, 0x00]).Uint32 = ⟨[0x81, 0x00]⟩ :=
  ⟨⟨by decide, by decide, by decide⟩,
    (parseQuantity_minimal (NewParser [0x81, 0x00, 0xff]) ⟨[0x81, 0x00]⟩ (by decide)
      (by decide)).2.2 (by decide)⟩

/-! ## The header chunk -/

/-- C12. Header decoding: on every input that begins with "MThd", then the length
`00 00 00 06`, then a format type `f0 f1` whose big-endian value is at most 3,
then the track count `n0 n1` and the time division `t0 t1` (at least 14 bytes,
followed by any `rest`), `parseHeader` on a fresh parser succeeds, returns the
big-endian values of the three fields and leaves the cursor at offset 14. -/
theorem parseHeader_decodes (f0 f1 n0 n1 t0 t1 : Nat) (rest : List Nat)
    (hn0 : n0 < 256) (hn1 : n1 < 256) (ht0 : t0 < 256) (ht1 : t1 < 256)
    (hfmt : f0 * 256 + f1 ≤ 3) :
    (NewParser (MThd ++ [0x00, 0x00, 0x00, 0x06] ++ [f0, f1, n0, n1, t0, t1] ++ rest)).parseHeader =
      .ok ((f0 * 256 + f1, n0 * 256 + n1, t0 * 256 + t1),
        { NewParser (MThd ++ [0x00, 0x00, 0x00, 0x06] ++ [f0, f1, n0, n1, t0, t1] ++ rest) with
          position := 14 }) := by
  have hf0 : f0 = 0 := by omega
  subst hf0
  have hf1 : ¬ 3 < f1 % 65536 := by omega
  have e1 : f1 % 65536 = f1 := by omega
  have e2 : ((n0 % 65536) <<< 8 % 65536 + n1 % 65536) % 65536 = n0 * 256 + n1 := by
    rw [Nat.shiftLeft_eq]; omega
  have e3 : ((t0 % 65536) <<< 8 % 65536 + t1 % 65536) % 65536 = t0 * 256 + t1 := by
    rw [Nat.shiftLeft_eq]; omega
  simp [Parser.parseHeader, NewParser, MThd, slice, index, bind, Except.bind, pure, Except.pure,
    hf1, e1, e2, e3]
  omega

/-- C12 at the header `"MThd" 00 00 00 06 00 01 00 02 00 60`: the result is
(1, 2, 0x60) and the cursor is at 14. -/
theorem parseHeader_decodes_witness :
    ((2 : Nat) < 256 ∧ (0x60 : Nat) < 256 ∧ 0 * 256 + 1 ≤ 3) ∧
    (NewParser (MThd ++ [0x00, 0x00, 0x00, 0x06] ++ [0, 1, 0, 2, 0, 0x60] ++ [])).parseHeader =
      .ok ((0 * 256 + 1, 0 * 256 + 2, 0 * 256 + 0x60),
        { NewParser (MThd ++ [0x00, 0x00, 0x00, 0x06] ++ [0, 1, 0, 2, 0, 0x60] ++ []) with
          position := 14 }) :=
  ⟨by decide,
    parseHeader_decodes 0 1 0 2 0 0x60 [] (by decide) (by decide) (by decide) (by decide)
      (by decide)⟩

/-- C13. Format-type validation at the header `"MThd" 00 00 00 06 01 00 00 01 00 60`:
the format type field is `01 00`, 256 as a big-endian value, and `parseHeader`
accepts the header with `formatType = 0`, where an error is expected. -/
theorem parseHeader_format_high_byte :
    3 < 0x01 * 256 + 0x00 ∧
    (NewParser (MThd ++ [0x00, 0x00, 0x00, 0x06] ++ [0x01, 0x00, 0x00, 0x01, 0x00, 0x60])).parseHeader =
      .ok ((0, 1, 0x60),
        ⟨MThd ++ [0x00, 0x00, 0x00, 0x06] ++ [0x01, 0x00, 0x00, 0x01, 0x00, 0x60], 14, 0⟩) := by
  decide

/-- C14. Header-length validation at the header `"MThd" 00 00 01 06 00 01 00 02 00 60`:
the length field is `00 00 01 06`, 262 as a big-endian value, and `parseHeader`
accepts the header, where an error is expected. -/
theorem parseHeader_length_high_bytes :
    ((0x00 * 256 + 0x00) * 256 + 0x01) * 256 + 0x06 ≠ 6 ∧
    (NewParser (MThd ++ [0x00, 0x00, 0x01, 0x06] ++ [0x00, 0x01, 0x00, 0x02, 0x00, 0x60])).parseHeader =
      .ok ((1, 2, 0x60),
        ⟨MThd ++ [0x00, 0x00, 0x01, 0x06] ++ [0x00, 0x01, 0x00, 0x02, 0x00, 0x60], 14, 0⟩) := by
  decide

/-- C15. Truncated input: on the 4-byte input "MThd", and on a complete header
followed by a track chunk cut after `"MTrk" 00 00`, `Parse` stops with the
run-time fault of an index outside the buffer, where a returned error is expected;
so does `parseEvent` on the single byte `00`, whose status byte is missing. -/
theorem Parse_truncated_faults :
    (NewParser MThd).Parse = some (.error .outOfRange) ∧
    (NewParser (MThd ++ [0x00, 0x00, 0x00, 0x06] ++ [0x00, 0x01, 0x00, 0x01, 0x00, 0x60] ++
      MTrk ++ [0x00, 0x00])).Parse = some (.error .outOfRange) ∧
    (NewParser [0x00]).parseEvent = .error .outOfRange := by
  decide

/-! ## Tracks -/

/-- When the loop of `parseTrack` returns a track, the events appended to the ones
it started with are some events that are not EndOfTrackEvents followed by one
EndOfTrackEvent. -/
theorem parseTrackLoop_ok (fuel : Nat) (p : Parser) (track0 track : Track) (p1 : Parser)
    (h : parseTrackLoop fuel p track0 = some (.ok (track, p1))) :
    ∃ mid deltaTime, track.Events = track0.Events ++ mid ++ [some (.EndOfTrackEvent deltaTime)] ∧
      ∀ e ∈ mid, ∀ d, e ≠ some (.EndOfTrackEvent d) := by
  induction fuel generalizing p track0 with
  | zero => simp [parseTrackLoop] at h
  | succ fuel ih =>
    unfold parseTrackLoop at h
    by_cases hpos : p.position ≥ p.data.length
    · rw [if_pos hpos] at h
      simp at h
    · rw [if_neg hpos] at h
      cases hev : p.parseEvent with
      | error e => simp [hev] at h
      | ok r =>
        obtain ⟨event, sizeOfEvent, p2⟩ := r
        simp only [hev] at h
        split at h
        · rename_i d
          simp only [Option.some.injEq, Except.ok.injEq, Prod.mk.injEq] at h
          refine ⟨[], d, ?_, by simp⟩
          rw [← h.1]
          simp
        · rename_i hne
          obtain ⟨mid, d, hE, hmid⟩ := ih _ _ h
          refine ⟨event :: mid, d, ?_, ?_⟩
          · rw [hE]
            simp
          · intro e he d1
            rcases List.mem_cons.mp he with rfl | he
            · intro heq
              exact hne d1 heq
            · exact hmid e he d1

/-- Once the cursor is at or past the end of the buffer, the loop of `parseTrack`
returns the missing-end-of-track error. -/
theorem parseTrackLoop_at_end (fuel : Nat) (p : Parser) (track0 : Track)
    (h : p.position ≥ p.data.length) :
    parseTrackLoop (fuel + 1) p track0 = some (.error .missingEndOfTrack) := by
  unfold parseTrackLoop
  rw [if_pos h]

/-- The loop of `parseTrack` leaves the buffer as it was. -/
theorem parseTrackLoop_data (fuel : Nat) (p : Parser) (track0 track : Track) (p1 : Parser)
    (h : parseTrackLoop fuel p track0 = some (.ok (track, p1))) : p1.data = p.data := by
  induction fuel generalizing p track0 with
  | zero => simp [parseTrackLoop] at h
  | succ fuel ih =>
    unfold parseTrackLoop at h
    by_cases hpos : p.position ≥ p.data.length
    · rw [if_pos hpos] at h
      simp at h
    · rw [if_neg hpos] at h
      cases hev : p.parseEvent with
      | error e => simp [hev] at h
      | ok r =>
        obtain ⟨event, sizeOfEvent, p2⟩ := r
        obtain ⟨-, hdata, -⟩ := parseEvent_ok p _ hev
        simp only at hdata
        simp only [hev] at h
        split at h
        · simp only [Option.some.injEq, Except.ok.injEq, Prod.mk.injEq] at h
          rw [← h.2]
          exact hdata
        · rw [ih _ _ h]
          exact hdata

/-- When the loop of `parseTrack` returns a track, it has moved the cursor forward
by the sizes of the events it parsed, at least one byte. -/
theorem parseTrackLoop_position (fuel : Nat) (p : Parser) (track0 track : Track) (p1 : Parser)
    (h : parseTrackLoop fuel p track0 = some (.ok (track, p1))) : p.position < p1.position := by
  induction fuel generalizing p track0 with
  | zero => simp [parseTrackLoop] at h
  | succ fuel ih =>
    unfold parseTrackLoop at h
    by_cases hpos : p.position ≥ p.data.length
    · rw [if_pos hpos] at h
      simp at h
    · rw [if_neg hpos] at h
      cases hev : p.parseEvent with
      | error e => simp [hev] at h
      | ok r =>
        obtain ⟨event, sizeOfEvent, p2⟩ := r
        obtain ⟨hsz, -, hp⟩ := parseEvent_ok p _ hev
        simp only at hsz hp
        simp only [hev] at h
        split at h
        · simp only [Option.some.injEq, Except.ok.injEq, Prod.mk.injEq] at h
          rw [← h.2]
          simp only
          omega
        · have := ih _ _ h
          simp only at this
          omega

/-- C16. Every Track that `parseTrack` returns is non-empty, its last event is an
EndOfTrackEvent and none of its earlier events is one; and whenever the cursor is
at the end of the input, on entry or at a later turn of the loop, without an
EndOfTrackEvent having been produced, the result is the missing-end-of-track
error and no Track. -/
theorem parseTrack_invariant (p : Parser) :
    (∀ track p1, p.parseTrack = some (.ok (track, p1)) →
      track.Events ≠ [] ∧
      (∃ d, track.Events.getLast? = some (some (.EndOfTrackEvent d))) ∧
      ∀ e ∈ track.Events.dropLast, ∀ d, e ≠ some (.EndOfTrackEvent d)) ∧
    (p.position ≥ p.data.length → p.parseTrack = some (.error .missingEndOfTrack)) ∧
    (∀ fuel q track0, q.position ≥ q.data.length →
      parseTrackLoop (fuel + 1) q track0 = some (.error .missingEndOfTrack)) := by
  refine ⟨?_, ?_, ?_⟩
  · intro track p1 h
    obtain ⟨mid, d, hE, hmid⟩ := parseTrackLoop_ok _ _ _ _ _ h
    simp only [List.nil_append] at hE
    rw [hE]
    refine ⟨by simp, ⟨d, by simp⟩, ?_⟩
    rw [List.dropLast_concat]
    exact hmid
  · intro h
    exact parseTrackLoop_at_end _ _ _ h
  · intro fuel q track0 h
    exact parseTrackLoop_at_end _ _ _ h

/-- C16 at the buffer `80 2F FF` followed by 48 zero bytes, where `parseTrack`
returns a track of one EndOfTrackEvent, and at the empty buffer, where the cursor
is at the end on entry. -/
theorem parseTrack_invariant_witness :
    ((NewParser ([0x80, 0x2f, 0xff] ++ List.replicate 48 0)).parseTrack =
        some (.ok (⟨[some (.EndOfTrackEvent ⟨⟨[0x80, 0x2f]⟩⟩)]⟩,
          ⟨[0x80, 0x2f, 0xff] ++ List.replicate 48 0, 53, 0xff⟩)) ∧
      (Track.mk [some (.EndOfTrackEvent ⟨⟨[0x80, 0x2f]⟩⟩)]).Events ≠ []) ∧
    ((NewParser []).position ≥ (NewParser []).data.length ∧
      (NewParser []).parseTrack = some (.error .missingEndOfTrack)) :=
  ⟨⟨by decide,
    ((parseTrack_invariant (NewParser ([0x80, 0x2f, 0xff] ++ List.replicate 48 0))).1
      ⟨[some (.EndOfTrackEvent ⟨⟨[0x80, 0x2f]⟩⟩)]⟩
      ⟨[0x80, 0x2f, 0xff] ++ List.replicate 48 0, 53, 0xff⟩ (by decide)).1⟩,
   ⟨by decide, (parseTrack_invariant (NewParser [])).2.1 (by decide)⟩⟩

/-- When the loop of `parseTracks` succeeds with `k` iterations left, it has
appended exactly `k` tracks, each one returned by `parseTrack` on the same buffer. -/
theorem parseTracksLoop_ok (k : Nat) (p : Parser) (acc tracks : List Track) (p1 : Parser)
    (h : parseTracksLoop k p acc = some (.ok (tracks, p1))) :
    ∃ new, tracks = acc ++ new ∧ new.length = k ∧
      ∀ t ∈ new, ∃ q q1 : Parser, q.data = p.data ∧ q.parseTrack = some (.ok (t, q1)) := by
  induction k generalizing p acc with
  | zero =>
    simp only [parseTracksLoop, Option.some.injEq, Except.ok.injEq, Prod.mk.injEq] at h
    exact ⟨[], by simp [h.1], rfl, by simp⟩
  | succ k ih =>
    unfold parseTracksLoop at h
    cases hs : slice p.data p.position (p.position + 4) with
    | error e => simp [hs] at h
    | ok mtrk =>
      simp only [hs] at h
      by_cases hm : mtrk ≠ MTrk
      · rw [if_pos hm] at h
        simp at h
      · rw [if_neg hm] at h
        cases hc : readChunkSize { p with position := p.position + 4 } with
        | error e => simp [hc] at h
        | ok chunkSize =>
          simp only [hc] at h
          cases ht : (Parser.mk p.data (p.position + 4 + 4) p.previousEventType).parseTrack with
          | none => simp [ht] at h
          | some r =>
            cases r with
            | error e => simp [ht] at h
            | ok r =>
              obtain ⟨track, p3⟩ := r
              simp only [ht] at h
              have hd3 : p3.data = p.data :=
                parseTrackLoop_data _ (Parser.mk p.data (p.position + 4 + 4) p.previousEventType)
                  _ _ _ ht
              obtain ⟨new, hnew, hlen, hall⟩ := ih _ _ h
              refine ⟨track :: new, by simp [hnew], by simp [hlen], ?_⟩
              intro t htm
              rcases List.mem_cons.mp htm with rfl | htm
              · exact ⟨Parser.mk p.data (p.position + 4 + 4) p.previousEventType, p3, rfl, ht⟩
              · obtain ⟨q, q1, hq, hqt⟩ := hall t htm
                exact ⟨q, q1, by rw [hq]; exact hd3, hqt⟩

/-- A turn of the loop of `parseTracks` is `parseChunk`: the loop stops with its
failure, or stores its track after the ones stored before and goes on from the
parser it leaves. -/
theorem parseTracksLoop_succ (k : Nat) (p : Parser) (acc : List Track) :
    parseTracksLoop (k + 1) p acc =
      match parseChunk p with
      | none => none
      | some (.error e) => some (.error e)
      | some (.ok (track, q)) => parseTracksLoop k q (acc ++ [track]) := by
  rw [parseTracksLoop]
  unfold parseChunk
  cases hs : slice p.data p.position (p.position + 4) with
  | error e => rfl
  | ok mtrk =>
    simp only
    by_cases hm : mtrk ≠ MTrk
    · rw [if_pos hm, if_pos hm]
    · rw [if_neg hm, if_neg hm]
      cases hc : readChunkSize (Parser.mk p.data (p.position + 4) p.previousEventType) with
      | error e => rfl
      | ok chunkSize =>
        simp only
        cases ht : (Parser.mk p.data (p.position + 4 + 4) p.previousEventType).parseTrack with
        | none => rfl
        | some r =>
          cases r with
          | error e => rfl
          | ok r => rfl

/-- The loop of `parseTracks` with `k` turns left succeeds exactly when the next
`k` chunks all parse; it then appends their tracks in the order of the chunks and
ends at the parser the last chunk leaves. -/
theorem parseTracksLoop_ok_iff (k : Nat) (p : Parser) (acc tracks : List Track) (p1 : Parser) :
    parseTracksLoop k p acc = some (.ok (tracks, p1)) ↔
      ∃ new, tracks = acc ++ new ∧ new.length = k ∧ cursorAfterChunks k p = some p1 ∧
        ∀ i t, new[i]? = some t →
          ∃ q q1, cursorAfterChunks i p = some q ∧ parseChunk q = some (.ok (t, q1)) := by
  induction k generalizing p acc with
  | zero =>
    simp only [parseTracksLoop, cursorAfterChunks, Option.some.injEq, Except.ok.injEq,
      Prod.mk.injEq]
    constructor
    · rintro ⟨h1, h2⟩
      exact ⟨[], by simp [h1], rfl, h2, by simp⟩
    · rintro ⟨new, hnew, hlen, hp, -⟩
      have : new = [] := List.length_eq_zero.mp hlen
      subst this
      exact ⟨by simp [hnew], hp⟩
  | succ k ih =>
    rw [parseTracksLoop_succ]
    cases hc : parseChunk p with
    | none =>
      simp only [false_iff, reduceCtorEq]
      rintro ⟨new, -, hlen, hcur, -⟩
      simp [cursorAfterChunks, hc] at hcur
    | some r =>
      cases r with
      | error e =>
        simp only [Option.some.injEq, reduceCtorEq, false_iff]
        rintro ⟨new, -, hlen, hcur, -⟩
        simp [cursorAfterChunks, hc] at hcur
      | ok r =>
        obtain ⟨t0, q0⟩ := r
        simp only
        rw [ih]
        constructor
        · rintro ⟨new, hnew, hlen, hcur, hall⟩
          refine ⟨t0 :: new, by simp [hnew], by simp [hlen], by simp [cursorAfterChunks, hc, hcur],
            ?_⟩
          intro i t hi
          cases i with
          | zero =>
            simp only [List.getElem?_cons_zero, Option.some.injEq] at hi
            subst hi
            exact ⟨p, q0, rfl, hc⟩
          | succ i =>
            simp only [List.getElem?_cons_succ] at hi
            obtain ⟨q, q1, hq, hq1⟩ := hall i t hi
            exact ⟨q, q1, by simp [cursorAfterChunks, hc, hq], hq1⟩
        · rintro ⟨new, hnew, hlen, hcur, hall⟩
          cases new with
          | nil => simp at hlen
          | cons t new =>
            obtain ⟨q, q1, hq, hq1⟩ := hall 0 t (by simp)
            simp only [cursorAfterChunks, Option.some.injEq] at hq
            subst hq
            rw [hc] at hq1
            simp only [Option.some.injEq, Except.ok.injEq, Prod.mk.injEq] at hq1
            obtain ⟨ht, hq0⟩ := hq1
            subst ht
            refine ⟨new, by simp [hnew], by simpa using hlen, ?_, ?_⟩
            · simpa [cursorAfterChunks, hc] using hcur
            · intro i t hi
              obtain ⟨q, q2, hq, hq2⟩ := hall (i + 1) t (by simpa using hi)
              exact ⟨q, q2, by simpa [cursorAfterChunks, hc] using hq, hq2⟩

/-- The loop of `parseTracks` with `k` turns left fails with `e` exactly when one
of the next `k` chunks fails with `e` and the chunks before it all parsed. -/
theorem parseTracksLoop_error_iff (k : Nat) (p : Parser) (acc : List Track) (e : Failure) :
    parseTracksLoop k p acc = some (.error e) ↔
      ∃ i q, i < k ∧ cursorAfterChunks i p = some q ∧ parseChunk q = some (.error e) := by
  induction k generalizing p acc with
  | zero => simp [parseTracksLoop]
  | succ k ih =>
    rw [parseTracksLoop_succ]
    cases hc : parseChunk p with
    | none =>
      simp only [false_iff, reduceCtorEq]
      rintro ⟨i, q, -, hq, hq1⟩
      cases i with
      | zero =>
        simp only [cursorAfterChunks, Option.some.injEq] at hq
        subst hq
        rw [hc] at hq1
        cases hq1
      | succ i => simp [cursorAfterChunks, hc] at hq
    | some r =>
      cases r with
      | error e1 =>
        simp only [Option.some.injEq, Except.error.injEq]
        constructor
        · intro he
          subst he
          exact ⟨0, p, by omega, rfl, hc⟩
        · rintro ⟨i, q, -, hq, hq1⟩
          cases i with
          | zero =>
            simp only [cursorAfterChunks, Option.some.injEq] at hq
            subst hq
            rw [hc] at hq1
            simpa using hq1
          | succ i => simp [cursorAfterChunks, hc] at hq
      | ok r =>
        obtain ⟨t0, q0⟩ := r
        simp only
        rw [ih]
        constructor
        · rintro ⟨i, q, hi, hq, hq1⟩
          exact ⟨i + 1, q, by omega, by simpa [cursorAfterChunks, hc] using hq, hq1⟩
        · rintro ⟨i, q, hi, hq, hq1⟩
          cases i with
          | zero =>
            simp only [cursorAfterChunks, Option.some.injEq] at hq
            subst hq
            rw [hc] at hq1
            simp at hq1
          | succ i =>
            exact ⟨i, q, by omega, by simpa [cursorAfterChunks, hc] using hq, hq1⟩

/-- A chunk parses exactly when its four tag bytes are "MTrk", its length field
is read and `parseTrack`, called right after the length field, returns a track;
the parser it leaves is the one `parseTrack` left, moved on by the chunk length. -/
theorem parseChunk_ok_iff (q : Parser) (t : Track) (q1 : Parser) :
    parseChunk q = some (.ok (t, q1)) ↔
      ∃ chunkSize q3, slice q.data q.position (q.position + 4) = .ok MTrk ∧
        readChunkSize (Parser.mk q.data (q.position + 4) q.previousEventType) = .ok chunkSize ∧
        (Parser.mk q.data (q.position + 4 + 4) q.previousEventType).parseTrack =
          some (.ok (t, q3)) ∧
        q1 = Parser.mk q3.data (q3.position + chunkSize) q3.previousEventType := by
  unfold parseChunk
  cases hs : slice q.data q.position (q.position + 4) with
  | error e => simp
  | ok mtrk =>
    simp only
    by_cases hm : mtrk ≠ MTrk
    · rw [if_pos hm]
      simp only [Option.some.injEq, reduceCtorEq, Except.ok.injEq, false_iff]
      rintro ⟨_, _, h, -⟩
      exact hm h
    · rw [if_neg hm]
      have hm1 : mtrk = MTrk := not_not.mp hm
      subst hm1
      cases hc : readChunkSize (Parser.mk q.data (q.position + 4) q.previousEventType) with
      | error e => simp
      | ok chunkSize =>
        simp only
        cases ht : (Parser.mk q.data (q.position + 4 + 4) q.previousEventType).parseTrack with
        | none => simp
        | some r =>
          cases r with
          | error e => simp
          | ok r =>
            obtain ⟨track, q3⟩ := r
            simp only [Option.some.injEq, Except.ok.injEq, Prod.mk.injEq, true_and]
            constructor
            · rintro ⟨h1, h2⟩
              exact ⟨chunkSize, q3, rfl, ⟨h1, rfl⟩, h2.symm⟩
            · rintro ⟨c, q4, hc1, ⟨h1, h2⟩, h3⟩
              subst hc1 h2
              exact ⟨h1, h3.symm⟩

/-- C17. `parseTracks(n)` succeeds exactly when the `n` chunks it meets, each read
at the cursor the chunk before it left, all parse; it then returns exactly `n`
tracks in chunk order: the track with index `i` is the one `parseTrack` returned
for the chunk with index `i`. It fails, returning no track list, exactly when
one of these chunks fails while the chunks before it parsed, with the failure of
that chunk: "invalid track ID" when the four bytes at the cursor are not "MTrk",
the error of `parseTrack` when the track body fails to parse. -/
theorem parseTracks_count (p : Parser) (n : Nat) :
    (∀ tracks p1, p.parseTracks n = some (.ok (tracks, p1)) ↔
      tracks.length = n ∧ cursorAfterChunks n p = some p1 ∧
      ∀ i t, tracks[i]? = some t →
        ∃ q chunkSize q3, cursorAfterChunks i p = some q ∧
          slice q.data q.position (q.position + 4) = .ok MTrk ∧
          readChunkSize (Parser.mk q.data (q.position + 4) q.previousEventType) = .ok chunkSize ∧
          (Parser.mk q.data (q.position + 4 + 4) q.previousEventType).parseTrack =
            some (.ok (t, q3)) ∧
          cursorAfterChunks (i + 1) p =
            some (Parser.mk q3.data (q3.position + chunkSize) q3.previousEventType)) ∧
    (∀ e, p.parseTracks n = some (.error e) ↔
      ∃ i q, i < n ∧ cursorAfterChunks i p = some q ∧ parseChunk q = some (.error e)) ∧
    (∀ i (q : Parser) mtrk, i < n → cursorAfterChunks i p = some q →
      slice q.data q.position (q.position + 4) = .ok mtrk → mtrk ≠ MTrk →
      p.parseTracks n = some (.error .invalidTrackID)) ∧
    (∀ i (q : Parser) chunkSize e, i < n → cursorAfterChunks i p = some q →
      slice q.data q.position (q.position + 4) = .ok MTrk →
      readChunkSize (Parser.mk q.data (q.position + 4) q.previousEventType) = .ok chunkSize →
      (Parser.mk q.data (q.position + 4 + 4) q.previousEventType).parseTrack = some (.error e) →
      p.parseTracks n = some (.error e)) ∧
    cursorAfterChunks 0 p = some p := by
  have hcur : ∀ i (q : Parser) t q1, cursorAfterChunks i p = some q →
      parseChunk q = some (.ok (t, q1)) → cursorAfterChunks (i + 1) p = some q1 := by
    intro i
    induction i generalizing p with
    | zero =>
      intro q t q1 hq hc
      simp only [cursorAfterChunks, Option.some.injEq] at hq
      subst hq
      simp [cursorAfterChunks, hc]
    | succ i ih =>
      intro q t q1 hq hc
      rw [cursorAfterChunks] at hq ⊢
      cases hp : parseChunk p with
      | none => simp [hp] at hq
      | some r =>
        cases r with
        | error e => simp [hp] at hq
        | ok r =>
          obtain ⟨t0, q0⟩ := r
          simp only [hp] at hq ⊢
          exact ih q0 q t q1 hq hc
  refine ⟨?_, ?_, ?_, ?_, rfl⟩
  · intro tracks p1
    unfold Parser.parseTracks
    rw [parseTracksLoop_ok_iff]
    constructor
    · rintro ⟨new, hnew, hlen, hend, hall⟩
      simp only [List.nil_append] at hnew
      subst hnew
      refine ⟨hlen, hend, ?_⟩
      intro i t hi
      obtain ⟨q, q1, hq, hq1⟩ := hall i t hi
      obtain ⟨chunkSize, q3, h1, h2, h3, h4⟩ := (parseChunk_ok_iff q t q1).mp hq1
      exact ⟨q, chunkSize, q3, hq, h1, h2, h3, by rw [← h4]; exact hcur i q t q1 hq hq1⟩
    · rintro ⟨hlen, hend, hall⟩
      refine ⟨tracks, by simp, hlen, hend, ?_⟩
      intro i t hi
      obtain ⟨q, chunkSize, q3, hq, h1, h2, h3, -⟩ := hall i t hi
      exact ⟨q, _, hq, (parseChunk_ok_iff q t _).mpr ⟨chunkSize, q3, h1, h2, h3, rfl⟩⟩
  · intro e
    unfold Parser.parseTracks
    exact parseTracksLoop_error_iff n p [] e
  · intro i q mtrk hi hq hs hm
    unfold Parser.parseTracks
    rw [parseTracksLoop_error_iff]
    refine ⟨i, q, hi, hq, ?_⟩
    unfold parseChunk
    simp only [hs]
    rw [if_pos hm]
  · intro i q chunkSize e hi hq hs hc ht
    unfold Parser.parseTracks
    rw [parseTracksLoop_error_iff]
    refine ⟨i, q, hi, hq, ?_⟩
    unfold parseChunk
    simp only [hs]
    rw [if_neg (by simp)]
    simp only [hc, ht]

/-- The Go slice `s[len(a) : len(a)+n]` of `s = a ++ b` is the first `n` bytes of
`b`, when `b` has that many. -/
theorem slice_append (a b : List Nat) (n : Nat) (h : n ≤ b.length) :
    slice (a ++ b) a.length (a.length + n) = .ok (b.take n) := by
  unfold slice
  have hc : a.length ≤ a.length + n ∧ a.length + n ≤ (a ++ b).length := by
    rw [List.length_append]
    omega
  rw [if_pos hc, List.drop_left]
  simp

/-- The Go index `s[len(a)+i]` of `s = a ++ b` is `b[i]`. -/
theorem index_append (a b : List Nat) (i : Nat) :
    index (a ++ b) (a.length + i) = index b i := by
  unfold index
  rw [List.getElem?_append_right (by omega)]
  simp

/-- C18. Chunk boundary when `parseTracks(1)` is called with the cursor at 3 on the
buffer `80 2F FF "MTrk" 00 00 00 05` followed by 40 zero bytes: the chunk body
starts at `b = 11`, the declared length is `L = 5`, the one event of the track has
size 53, and the cursor after the chunk is `69 = 11 + 53 + 5`, where `b + L = 16`
is expected. -/
theorem parseTracks_cursor_after_chunk :
    readChunkSize (Parser.mk
      ([0x80, 0x2f, 0xff] ++ MTrk ++ [0x00, 0x00, 0x00, 0x05] ++ List.replicate 40 0) 7 0) = .ok 5 ∧
    (Parser.mk ([0x80, 0x2f, 0xff] ++ MTrk ++ [0x00, 0x00, 0x00, 0x05] ++ List.replicate 40 0)
        11 0).parseTrack =
      some (.ok (⟨[some (.EndOfTrackEvent ⟨⟨[0x80, 0x2f]⟩⟩)]⟩,
        ⟨[0x80, 0x2f, 0xff] ++ MTrk ++ [0x00, 0x00, 0x00, 0x05] ++ List.replicate 40 0, 64, 0xff⟩)) ∧
    (Parser.mk ([0x80, 0x2f, 0xff] ++ MTrk ++ [0x00, 0x00, 0x00, 0x05] ++ List.replicate 40 0)
        3 0).parseTracks 1 =
      some (.ok ([⟨[some (.EndOfTrackEvent ⟨⟨[0x80, 0x2f]⟩⟩)]⟩],
        ⟨[0x80, 0x2f, 0xff] ++ MTrk ++ [0x00, 0x00, 0x00, 0x05] ++ List.replicate 40 0, 69, 0xff⟩)) ∧
    (69 : Nat) ≠ 11 + 5 := by
  decide

/-! ## The InstrumentNameEvent -/

/-- C19. `SetText(t)` succeeds if and only if `len(t) <= 0xfffffff`; on success
`Text()` afterwards returns `t`; on failure it returns an error, the event is as
it was before the call, and `NewInstrumentNameEvent` returns no event for `t`. -/
theorem SetText_limit (e : InstrumentNameEvent) (t : List Nat) (deltaTime : DeltaTime) :
    ((e.SetText t).2 = none ↔ t.length ≤ 0xfffffff) ∧
    (t.length ≤ 0xfffffff →
      (e.SetText t).1.Text = t ∧ (e.SetText t).1.deltaTime = e.deltaTime ∧
      NewInstrumentNameEvent deltaTime t = .ok ⟨deltaTime, t⟩) ∧
    (¬ t.length ≤ 0xfffffff →
      (e.SetText t).2 = some .textTooLarge ∧ (e.SetText t).1 = e ∧
      NewInstrumentNameEvent deltaTime t = .error .textTooLarge) := by
  by_cases h : t.length > 0xfffffff
  · have hn : ¬ t.length ≤ 0xfffffff := by omega
    simp [InstrumentNameEvent.SetText, NewInstrumentNameEvent, h, hn]
  · have hn : t.length ≤ 0xfffffff := by omega
    simp [InstrumentNameEvent.SetText, NewInstrumentNameEvent, InstrumentNameEvent.Text, h, hn]

/-- C19 for the text "text", which is stored, and for a text of `0x10000000` zero
bytes, which is refused and leaves the event with the text "text". -/
theorem SetText_limit_witness :
    ([0x74, 0x65, 0x78, 0x74].length ≤ 0xfffffff ∧
      ((InstrumentNameEvent.mk ⟨⟨[0x00]⟩⟩ []).SetText [0x74, 0x65, 0x78, 0x74]).1.Text =
        [0x74, 0x65, 0x78, 0x74]) ∧
    (¬ (List.replicate 0x10000000 0).length ≤ 0xfffffff ∧
      ((InstrumentNameEvent.mk ⟨⟨[0x00]⟩⟩ [0x74, 0x65, 0x78, 0x74]).SetText
        (List.replicate 0x10000000 0)).1 = ⟨⟨⟨[0x00]⟩⟩, [0x74, 0x65, 0x78, 0x74]⟩) :=
  ⟨⟨by decide,
    ((SetText_limit ⟨⟨⟨[0x00]⟩⟩, []⟩ [0x74, 0x65, 0x78, 0x74] ⟨⟨[0x00]⟩⟩).2.1 (by decide)).1⟩,
   ⟨by rw [List.length_replicate]; omega,
    ((SetText_limit ⟨⟨⟨[0x00]⟩⟩, [0x74, 0x65, 0x78, 0x74]⟩ (List.replicate 0x10000000 0)
      ⟨⟨[0x00]⟩⟩).2.2 (by rw [List.length_replicate]; omega)).2.1⟩⟩

/-- The encoder output for a value below `2^28` is 1 to 4 bytes long, every byte
but the last is a byte with the bit `0x80` set, the last is below `0x80`, and it
decodes to the value. -/
theorem SetUint32_wellformed (q0 : Quantity) (v : Nat) (hv : v < 0x10000000) :
    (q0.SetUint32 v).Value = (q0.SetUint32 v).value ∧
    1 ≤ (q0.SetUint32 v).value.length ∧ (q0.SetUint32 v).value.length ≤ 4 ∧
    (∀ b ∈ (q0.SetUint32 v).value.dropLast, 0x80 ≤ b ∧ b < 256) ∧
    (∃ b, (q0.SetUint32 v).value.getLast? = some b ∧ b < 0x80) ∧
    (q0.SetUint32 v).Uint32 = v := by
  unfold Quantity.SetUint32
  by_cases h1 : v < 0x80
  · simp only [h1, if_true, Quantity.Uint32, Quantity.Value]
    simp
    omega
  · by_cases h2 : v < 0x4000
    · simp only [h1, h2, if_true, if_false, Quantity.Uint32, Quantity.Value]
      simp
      omega
    · by_cases h3 : v < 0x200000
      · simp only [h1, h2, h3, if_true, if_false, Quantity.Uint32, Quantity.Value]
        simp
        omega
      · simp only [h1, h2, h3, hv, if_true, if_false, Quantity.Uint32, Quantity.Value]
        simp
        omega

/-- C20. `Serialize()` returns exactly `d ++ [0xFF, 0x04] ++ q ++ t`, where `d` are
the delta-time bytes (the stored bytes, or `00` for a delta-time that was never
set), `t` is the text and `q` is the variable-length quantity the encoder gives
for `len(t)`; its length is `len(d) + 2 + len(q) + len(t)`; for `len(t)` up to
`0xfffffff`, `q` is a well-formed quantity of 1 to 4 bytes that decodes to
`len(t)`; and for a zero delta-time and the text "text" the output is
`00 FF 04 04 74 65 78 74`. -/
theorem Serialize_layout (e : InstrumentNameEvent) :
    e.Serialize = e.deltaTime.quantity.Value ++ [0xff, 0x04] ++
      ((Quantity.mk []).SetUint32 (e.text.length % 2 ^ 32)).Value ++ e.text ∧
    e.Serialize.length = e.deltaTime.quantity.Value.length + 2 +
      ((Quantity.mk []).SetUint32 (e.text.length % 2 ^ 32)).Value.length + e.text.length ∧
    (e.deltaTime.quantity.value ≠ [] → e.deltaTime.quantity.Value = e.deltaTime.quantity.value) ∧
    (e.deltaTime.quantity.value = [] → e.deltaTime.quantity.Value = [0x00]) ∧
    (e.text.length ≤ 0xfffffff →
      1 ≤ ((Quantity.mk []).SetUint32 (e.text.length % 2 ^ 32)).Value.length ∧
      ((Quantity.mk []).SetUint32 (e.text.length % 2 ^ 32)).Value.length ≤ 4 ∧
      (∀ b ∈ ((Quantity.mk []).SetUint32 (e.text.length % 2 ^ 32)).Value.dropLast,
        0x80 ≤ b ∧ b < 256) ∧
      (∃ b, ((Quantity.mk []).SetUint32 (e.text.length % 2 ^ 32)).Value.getLast? = some b ∧
        b < 0x80) ∧
      ((Quantity.mk []).SetUint32 (e.text.length % 2 ^ 32)).Uint32 = e.text.length) ∧
    (InstrumentNameEvent.mk ⟨⟨[0x00]⟩⟩ [0x74, 0x65, 0x78, 0x74]).Serialize =
      [0x00, 0xff, 0x04, 0x04, 0x74, 0x65, 0x78, 0x74] ∧
    (InstrumentNameEvent.mk ⟨⟨[]⟩⟩ [0x74, 0x65, 0x78, 0x74]).Serialize =
      [0x00, 0xff, 0x04, 0x04, 0x74, 0x65, 0x78, 0x74] := by
  have hS : e.Serialize = e.deltaTime.quantity.Value ++ [0xff, 0x04] ++
      ((Quantity.mk []).SetUint32 (e.text.length % 2 ^ 32)).Value ++ e.text := by
    simp [InstrumentNameEvent.Serialize, InstrumentNameEvent.Text, Meta, InstrumentName]
  refine ⟨hS, ?_, ?_, ?_, ?_, by decide, by decide⟩
  · rw [hS]
    simp only [List.length_append, List.length_cons, List.length_nil]
  · intro hne
    have : ¬ e.deltaTime.quantity.value.length = 0 := fun h => hne (List.length_eq_zero.mp h)
    simp [Quantity.Value, this]
  · intro hnil
    simp [Quantity.Value, hnil]
  · intro hlen
    have hmod : e.text.length % 2 ^ 32 = e.text.length := Nat.mod_eq_of_lt (by omega)
    rw [hmod]
    obtain ⟨hV, h1, h4, hall, hlast, hU⟩ :=
      SetUint32_wellformed (Quantity.mk []) e.text.length (by omega)
    rw [hV]
    exact ⟨h1, h4, hall, hlast, hU⟩

/-- C20 for the event with delta-time `00` and the text "text": the length prefix
is the one byte `04`. -/
theorem Serialize_layout_witness :
    (InstrumentNameEvent.mk ⟨⟨[0x00]⟩⟩ [0x74, 0x65, 0x78, 0x74]).text.length ≤ 0xfffffff ∧
    ((Quantity.mk []).SetUint32
      ((InstrumentNameEvent.mk ⟨⟨[0x00]⟩⟩ [0x74, 0x65, 0x78, 0x74]).text.length % 2 ^ 32)).Uint32 =
      (InstrumentNameEvent.mk ⟨⟨[0x00]⟩⟩ [0x74, 0x65, 0x78, 0x74]).text.length :=
  ⟨by decide,
    ((Serialize_layout (InstrumentNameEvent.mk ⟨⟨[0x00]⟩⟩ [0x74, 0x65, 0x78, 0x74])).2.2.2.2.1
      (by decide)).2.2.2.2⟩

/-! ## The previous status across tracks, and the size of an event -/

/-- A Quantity returned by `parseQuantity` has at least one byte. -/
theorem parseQuantity_nonempty (p : Parser) (q : Quantity) (h : p.parseQuantity = .ok q) :
    1 ≤ q.value.length := by
  rcases parseQuantity_shape p q h with
    ⟨_, _, _, hv, _⟩ | ⟨_, _, _, _, hv, _⟩ | ⟨_, _, _, _, _, hv, _⟩ | ⟨_, _, _, _, _, _, hv, _⟩ <;>
  simp [hv]

/-- The bytes `Quantity.Value` returns are never empty. -/
theorem Quantity_Value_nonempty (q : Quantity) : 1 ≤ q.Value.length := by
  unfold Quantity.Value
  split
  · simp
  · omega

/-- A successful `parseMetaEvent` reports a size of at least 4. -/
theorem parseMetaEvent_size (p : Parser) (deltaTime : DeltaTime) (r : Parsed)
    (h : p.parseMetaEvent deltaTime = .ok r) : 4 ≤ r.2.1 := by
  unfold Parser.parseMetaEvent at h
  cases hq : p.parseQuantity with
  | error e => simp [hq, bind, Except.bind] at h
  | ok q =>
    have hq1 := parseQuantity_nonempty p q hq
    have hv1 := Quantity_Value_nonempty deltaTime.quantity
    cases hi : index p.data 1 with
    | error e => simp [hq, hi, bind, Except.bind] at h
    | ok t =>
      cases hs : slice p.data (2 + q.value.length) (2 + q.value.length + q.Uint32) with
      | error e => simp [hq, hi, hs, bind, Except.bind] at h
      | ok d =>
        cases hb : buildMetaEvent deltaTime t d with
        | error e => simp [hq, hi, hs, hb, bind, Except.bind] at h
        | ok ev =>
          simp only [hq, hi, hs, hb, bind, Except.bind, pure, Except.pure] at h
          injection h with h
          subst h
          simp only
          omega

/-- A successful `parseSystemExclusiveEvent` reports a size of at least 2 more than
the length of the delta-time, and its event is not an EndOfTrackEvent. -/
theorem parseSystemExclusiveEvent_size (p : Parser) (deltaTime : DeltaTime) (r : Parsed)
    (h : p.parseSystemExclusiveEvent deltaTime = .ok r) :
    deltaTime.quantity.value.length + 2 ≤ r.2.1 ∧ ∀ d, r.1 ≠ some (.EndOfTrackEvent d) := by
  unfold Parser.parseSystemExclusiveEvent at h
  cases hq : p.parseQuantity with
  | error e => simp [hq, bind, Except.bind] at h
  | ok q =>
    have hq1 := parseQuantity_nonempty p q hq
    cases hi : index p.data 0 with
    | error e => simp [hq, hi, bind, Except.bind] at h
    | ok t =>
      simp only [hq, hi, bind, Except.bind, pure, Except.pure] at h
      repeat' split at h
      all_goals first
        | (cases h; exact ⟨by simp only; omega, by intro d hd; cases hd⟩)
        | cases h

/-- A successful `parseMIDIControlEvent` reports a size of at least 3, and its
event is not an EndOfTrackEvent. -/
theorem parseMIDIControlEvent_size (p : Parser) (deltaTime : DeltaTime) (eventType : Nat)
    (r : Parsed) (h : p.parseMIDIControlEvent deltaTime eventType = .ok r) :
    3 ≤ r.2.1 ∧ ∀ d, r.1 ≠ some (.EndOfTrackEvent d) := by
  have hv1 := Quantity_Value_nonempty deltaTime.quantity
  unfold Parser.parseMIDIControlEvent at h
  cases hs : slice p.data 1 3 with
  | error e => simp [hs, bind, Except.bind] at h
  | ok d =>
    cases hb : buildMIDIControlEvent p deltaTime eventType d (eventType &&& 0x0f) with
    | error e => simp [hs, hb, bind, Except.bind] at h
    | ok ev =>
      obtain ⟨ev, n⟩ := ev
      simp only [hs, hb, bind, Except.bind, pure, Except.pure] at h
      injection h with h
      subst h
      have hn : 2 ≤ n ∧ ∀ d, ev ≠ .EndOfTrackEvent d := by
        unfold buildMIDIControlEvent at hb
        simp only [bind, Except.bind, pure, Except.pure] at hb
        repeat' split at hb
        all_goals first
          | (cases hb; exact ⟨by omega, by intro d hd; cases hd⟩)
          | cases hb
      refine ⟨by simp only; omega, ?_⟩
      intro d hd
      simp only [Option.some.injEq] at hd
      exact hn.2 d hd

/-- A DeltaTime returned by `parseDeltaTime` wraps a Quantity returned by
`parseQuantity`. -/
theorem parseDeltaTime_ok (p : Parser) (dt : DeltaTime) (h : p.parseDeltaTime = .ok dt) :
    p.parseQuantity = .ok dt.quantity := by
  unfold Parser.parseDeltaTime at h
  cases hq : p.parseQuantity with
  | error e => simp [hq, bind, Except.bind] at h
  | ok q =>
    simp only [hq, bind, Except.bind, pure, Except.pure] at h
    injection h with h
    rw [← h]

/-- A successful `parseEvent` reports a size of at least 3, and when its event is
an EndOfTrackEvent the previous status it leaves is `Meta`. -/
theorem parseEvent_size (p : Parser) (r : Parsed) (h : p.parseEvent = .ok r) :
    3 ≤ r.2.1 ∧ ∀ d, r.1 = some (.EndOfTrackEvent d) → r.2.2.previousEventType = Meta := by
  unfold Parser.parseEvent at h
  cases hd : p.parseDeltaTime with
  | error e => simp [hd, bind, Except.bind] at h
  | ok dt =>
    have hdt := parseQuantity_nonempty p _ (parseDeltaTime_ok p dt hd)
    cases hi : index p.data dt.quantity.value.length with
    | error e => simp [hd, hi, bind, Except.bind] at h
    | ok t =>
      simp only [hd, hi, bind, Except.bind] at h
      have key : ∀ et : Nat,
          (if et = Meta then p.parseMetaEvent dt
            else if et = SystemExclusive ∨ et = DividedSystemExclusive then
              p.parseSystemExclusiveEvent dt
            else p.parseMIDIControlEvent dt et) = .ok r →
          3 ≤ r.2.1 ∧ ∀ d, r.1 = some (.EndOfTrackEvent d) → r.2.2.previousEventType = Meta := by
        intro et het
        split at het
        · have h1 := parseMetaEvent_size p dt r het
          obtain ⟨-, h2⟩ := parseMetaEvent_ok p dt r het
          rw [h2]
          exact ⟨by omega, fun _ _ => rfl⟩
        · split at het
          · obtain ⟨h1, h2⟩ := parseSystemExclusiveEvent_size p dt r het
            exact ⟨by omega, fun d hd => absurd hd (h2 d)⟩
          · obtain ⟨h1, h2⟩ := parseMIDIControlEvent_size p dt _ r het
            exact ⟨h1, fun d hd => absurd hd (h2 d)⟩
      exact key _ h

/-- When the loop of `parseTrack` returns a track, the previous status it leaves
is `Meta`, set by the EndOfTrack meta-event that ended the loop. -/
theorem parseTrackLoop_previous (fuel : Nat) (p : Parser) (track0 track : Track) (p1 : Parser)
    (h : parseTrackLoop fuel p track0 = some (.ok (track, p1))) :
    p1.previousEventType = Meta := by
  induction fuel generalizing p track0 with
  | zero => simp [parseTrackLoop] at h
  | succ fuel ih =>
    unfold parseTrackLoop at h
    by_cases hpos : p.position ≥ p.data.length
    · rw [if_pos hpos] at h
      simp at h
    · rw [if_neg hpos] at h
      cases hev : p.parseEvent with
      | error e => simp [hev] at h
      | ok r =>
        obtain ⟨event, sizeOfEvent, p2⟩ := r
        obtain ⟨-, hmeta⟩ := parseEvent_size p _ hev
        simp only at hmeta
        simp only [hev] at h
        split at h
        · rename_i d
          simp only [Option.some.injEq, Except.ok.injEq, Prod.mk.injEq] at h
          rw [← h.2]
          exact hmeta d rfl
        · exact ih _ _ h

/-- With more iterations the loop of `parseTrack` gives the same result. -/
theorem parseTrackLoop_mono (fuel extra : Nat) (p : Parser) (track0 : Track)
    (r : Except Failure (Track × Parser)) (h : parseTrackLoop fuel p track0 = some r) :
    parseTrackLoop (fuel + extra) p track0 = some r := by
  induction fuel generalizing p track0 with
  | zero => simp [parseTrackLoop] at h
  | succ fuel ih =>
    have e : fuel + 1 + extra = (fuel + extra) + 1 := by omega
    rw [e]
    unfold parseTrackLoop at h ⊢
    by_cases hpos : p.position ≥ p.data.length
    · rw [if_pos hpos] at h ⊢
      exact h
    · rw [if_neg hpos] at h ⊢
      cases hev : p.parseEvent with
      | error e => simpa [hev] using h
      | ok r1 =>
        obtain ⟨event, sizeOfEvent, p2⟩ := r1
        simp only [hev] at h ⊢
        split at h
        · exact h
        · exact ih _ _ h

/-- A track returned by the loop of `parseTrack` has gained at most as many events
as there are bytes from the cursor to the end of the buffer. -/
theorem parseTrackLoop_events (fuel : Nat) (p : Parser) (track0 track : Track) (p1 : Parser)
    (h : parseTrackLoop fuel p track0 = some (.ok (track, p1))) :
    track.Events.length ≤ track0.Events.length + (p.data.length - p.position) := by
  induction fuel generalizing p track0 with
  | zero => simp [parseTrackLoop] at h
  | succ fuel ih =>
    unfold parseTrackLoop at h
    by_cases hpos : p.position ≥ p.data.length
    · rw [if_pos hpos] at h
      simp at h
    · rw [if_neg hpos] at h
      cases hev : p.parseEvent with
      | error e => simp [hev] at h
      | ok r =>
        obtain ⟨event, sizeOfEvent, p2⟩ := r
        obtain ⟨hsz, hdata, hp⟩ := parseEvent_ok p _ hev
        simp only at hsz hdata hp
        simp only [hev] at h
        split at h
        · simp only [Option.some.injEq, Except.ok.injEq, Prod.mk.injEq] at h
          rw [← h.1]
          simp only [List.length_append, List.length_cons, List.length_nil]
          omega
        · have := ih _ _ h
          simp only [List.length_append, List.length_cons, List.length_nil, hdata, hp] at this
          omega

/-- The loop of `parseTrack` leaves within `len(p.data) - p.position` turns that
parse an event, followed by one test of the cursor, and `parseTrack` gives the
result of that run. -/
theorem parseTrack_within_bound (p : Parser) :
    ∃ r, parseTrackLoop (p.data.length - p.position + 1) p ⟨[]⟩ = some r ∧
      p.parseTrack = some r := by
  obtain ⟨r, hr⟩ := parseTrackLoop_leaves (p.data.length - p.position + 1) p ⟨[]⟩ (by omega)
  refine ⟨r, hr, ?_⟩
  have := parseTrackLoop_mono _ p.position p ⟨[]⟩ r hr
  unfold Parser.parseTrack
  have e : p.data.length - p.position + 1 + p.position = p.data.length + 1 ∨
      p.data.length < p.position := by omega
  rcases e with e | e
  · rw [← e]
    exact this
  · have hpos : p.position ≥ p.data.length := by omega
    have h0 : p.data.length - p.position = 0 := by omega
    rw [h0] at hr
    rw [parseTrackLoop_at_end _ _ _ hpos] at hr ⊢
    exact hr

/-- One turn of the loop of `parseTracks` that ends in success: the track is
parsed by `parseTrack` with the previous status the loop state holds, and the
loop goes on with the previous status `parseTrack` left. -/
theorem parseTracksLoop_step (k : Nat) (q : Parser) (acc tracks : List Track) (p1 : Parser)
    (h : parseTracksLoop (k + 1) q acc = some (.ok (tracks, p1))) :
    ∃ chunkSize track q3,
      (Parser.mk q.data (q.position + 4 + 4) q.previousEventType).parseTrack =
        some (.ok (track, q3)) ∧
      parseTracksLoop k (Parser.mk q3.data (q3.position + chunkSize) q3.previousEventType)
        (acc ++ [track]) = some (.ok (tracks, p1)) := by
  unfold parseTracksLoop at h
  cases hs : slice q.data q.position (q.position + 4) with
  | error e => simp [hs] at h
  | ok mtrk =>
    simp only [hs] at h
    by_cases hm : mtrk ≠ MTrk
    · rw [if_pos hm] at h
      simp at h
    · rw [if_neg hm] at h
      cases hc : readChunkSize (Parser.mk q.data (q.position + 4) q.previousEventType) with
      | error e => simp [hc] at h
      | ok chunkSize =>
        simp only [hc] at h
        cases ht : (Parser.mk q.data (q.position + 4 + 4) q.previousEventType).parseTrack with
        | none => simp [ht] at h
        | some r =>
          cases r with
          | error e => simp [ht] at h
          | ok r =>
            obtain ⟨track, q3⟩ := r
            simp only [ht] at h
            exact ⟨chunkSize, track, q3, rfl, h⟩

/-- C21. `DeltaTime.Value()` on the delta-time `81 00` that `parseDeltaTime`
returns for the buffer `81 00`: the result is 129, the first byte, where the
accumulated value 128 is expected. -/
theorem DeltaTime_Value_first_byte :
    (NewParser [0x81, 0x00]).parseDeltaTime = .ok ⟨⟨[0x81, 0x00]⟩⟩ ∧
    (DeltaTime.mk ⟨[0x81, 0x00]⟩).Value = .ok 129 ∧
    (Quantity.mk [0x81, 0x00]).Uint32 = 128 ∧
    (0x81 % 0x80) * 0x80 + 0x00 % 0x80 = 128 := by
  decide

/-- C22. The previous status is carried across track boundaries: a track that
`parseTrack` returns ends with an EndOfTrack meta-event and leaves the previous
status `Meta` (0xFF); `parseTracks` hands every `parseTrack` call the previous
status its loop state holds and goes on with the one the call left, so the track
after a parsed one is entered with `Meta`; and `parseEvent` with previous status
`Meta` takes the meta-event path when the candidate status byte is below 0x80. -/
theorem previous_status_carried :
    (∀ (p : Parser) track p1, p.parseTrack = some (.ok (track, p1)) →
      p1.previousEventType = Meta ∧
      ∃ earlier d, track.Events = earlier ++ [some (.EndOfTrackEvent d)]) ∧
    (∀ k (q : Parser) acc tracks p1, parseTracksLoop (k + 1) q acc = some (.ok (tracks, p1)) →
      ∃ chunkSize track q3,
        (Parser.mk q.data (q.position + 4 + 4) q.previousEventType).parseTrack =
          some (.ok (track, q3)) ∧
        q3.previousEventType = Meta ∧
        parseTracksLoop k (Parser.mk q3.data (q3.position + chunkSize) Meta) (acc ++ [track]) =
          some (.ok (tracks, p1))) ∧
    (∀ k (q : Parser) acc tracks p1, parseTracksLoop (k + 2) q acc = some (.ok (tracks, p1)) →
      ∃ chunkSize track q3 track2 q5,
        (Parser.mk q.data (q.position + 4 + 4) q.previousEventType).parseTrack =
          some (.ok (track, q3)) ∧
        (Parser.mk q3.data (q3.position + chunkSize + 4 + 4) Meta).parseTrack =
          some (.ok (track2, q5))) ∧
    (∀ (q : Parser) dt c, q.previousEventType = Meta → q.parseDeltaTime = .ok dt →
      index q.data dt.quantity.value.length = .ok c → c < 0x80 →
      q.parseEvent = q.parseMetaEvent dt) := by
  refine ⟨?_, ?_, ?_, ?_⟩
  · intro p track p1 h
    refine ⟨parseTrackLoop_previous _ _ _ _ _ h, ?_⟩
    obtain ⟨mid, d, hE, -⟩ := parseTrackLoop_ok _ _ _ _ _ h
    exact ⟨mid, d, by simpa using hE⟩
  · intro k q acc tracks p1 h
    obtain ⟨chunkSize, track, q3, ht, hrest⟩ := parseTracksLoop_step k q acc tracks p1 h
    have hprev : q3.previousEventType = Meta := parseTrackLoop_previous _ _ _ _ _ ht
    rw [hprev] at hrest
    exact ⟨chunkSize, track, q3, ht, hprev, hrest⟩
  · intro k q acc tracks p1 h
    obtain ⟨chunkSize, track, q3, ht, hrest⟩ := parseTracksLoop_step (k + 1) q acc tracks p1 h
    have hprev : q3.previousEventType = Meta := parseTrackLoop_previous _ _ _ _ _ ht
    rw [hprev] at hrest
    obtain ⟨chunkSize2, track2, q5, ht2, -⟩ := parseTracksLoop_step k _ _ tracks p1 hrest
    exact ⟨chunkSize, track, q3, track2, q5, ht, ht2⟩
  · intro q dt c hprev hd hi hc
    unfold Parser.parseEvent
    simp only [hd, hi, bind, Except.bind]
    have hcond : c < 0x80 ∧ q.previousEventType ≥ 0x80 := ⟨hc, by rw [hprev]; decide⟩
    rw [if_pos hcond, hprev]
    simp

/-- C22 at the buffer `80 2F FF` followed by 48 zero bytes, whose track leaves the
previous status 0xFF, and at the buffer `00 2F 00` read with previous status 0xFF,
where the candidate status byte `2F` is below 0x80. -/
theorem previous_status_carried_witness :
    ((NewParser ([0x80, 0x2f, 0xff] ++ List.replicate 48 0)).parseTrack =
        some (.ok (⟨[some (.EndOfTrackEvent ⟨⟨[0x80, 0x2f]⟩⟩)]⟩,
          ⟨[0x80, 0x2f, 0xff] ++ List.replicate 48 0, 53, 0xff⟩)) ∧
      (Parser.mk ([0x80, 0x2f, 0xff] ++ List.replicate 48 0) 53 0xff).previousEventType = Meta) ∧
    ((Parser.mk [0x00, 0x2f, 0x00] 0 0xff).previousEventType = Meta ∧
      (Parser.mk [0x00, 0x2f, 0x00] 0 0xff).parseDeltaTime = .ok ⟨⟨[0x00]⟩⟩ ∧
      index (Parser.mk [0x00, 0x2f, 0x00] 0 0xff).data (DeltaTime.mk ⟨[0x00]⟩).quantity.value.length =
        .ok 0x2f ∧
      (Parser.mk [0x00, 0x2f, 0x00] 0 0xff).parseEvent =
        (Parser.mk [0x00, 0x2f, 0x00] 0 0xff).parseMetaEvent ⟨⟨[0x00]⟩⟩) :=
  ⟨⟨by decide,
    (previous_status_carried.1 (NewParser ([0x80, 0x2f, 0xff] ++ List.replicate 48 0))
      ⟨[some (.EndOfTrackEvent ⟨⟨[0x80, 0x2f]⟩⟩)]⟩
      ⟨[0x80, 0x2f, 0xff] ++ List.replicate 48 0, 53, 0xff⟩ (by decide)).1⟩,
   ⟨by decide, by decide, by decide,
    previous_status_carried.2.2.2 (Parser.mk [0x00, 0x2f, 0x00] 0 0xff) ⟨⟨[0x00]⟩⟩ 0x2f
      (by decide) (by decide) (by decide) (by decide)⟩⟩

/-- C23. The track loop on the one-byte buffer `00` with the cursor at 0: the one
turn of the loop (`len(data) - position = 1`) calls `parseEvent`, which reads the
status byte at index 1 outside the buffer, so `parseTrack` stops with the run-time
fault and returns neither a Track nor an error. -/
theorem parseTrack_fault_in_loop :
    (NewParser [0x00]).data.length - (NewParser [0x00]).position = 1 ∧
    (NewParser [0x00]).parseDeltaTime = .ok ⟨⟨[0x00]⟩⟩ ∧
    (NewParser [0x00]).parseEvent = .error .outOfRange ∧
    (NewParser [0x00]).parseTrack = some (.error .outOfRange) := by
  decide

/-! ## Two chunks with different tracks -/

/-- On a buffer that starts `FF 2F 00`, with previous status `0xF0`: `parseEvent`
takes the system-exclusive path, returns a nil event of size 16308 and leaves the
previous status `0xFF`. -/
theorem parseEvent_ff2f_sysex (rest : List Nat) (pos : Nat) :
    (Parser.mk (0xff :: 0x2f :: 0x00 :: rest) pos 0xf0).parseEvent =
      .ok (none, 16308, Parser.mk (0xff :: 0x2f :: 0x00 :: rest) pos 0xff) := by
  have hU : (Quantity.mk [0xff, 0x2f]).Uint32 = 16303 := by decide
  simp [Parser.parseEvent, Parser.parseDeltaTime, Parser.parseQuantity, parseQuantityLoop,
    Parser.parseSystemExclusiveEvent, index, bind, Except.bind, pure, Except.pure, Meta,
    SystemExclusive, DividedSystemExclusive, hU]

/-- On a buffer that starts `FF 2F 00` and is long enough for the 16303 payload
bytes, with previous status `0xFF`: `parseEvent` takes the meta-event path and
returns an EndOfTrackEvent of size 16309. -/
theorem parseEvent_ff2f_meta (rest : List Nat) (pos : Nat) (h : 16304 ≤ rest.length) :
    (Parser.mk (0xff :: 0x2f :: 0x00 :: rest) pos 0xff).parseEvent =
      .ok (some (.EndOfTrackEvent ⟨⟨[0xff, 0x2f]⟩⟩), 16309,
        Parser.mk (0xff :: 0x2f :: 0x00 :: rest) pos 0xff) := by
  have hU : (Quantity.mk [0xff, 0x2f]).Uint32 = 16303 := by decide
  have hV : (Quantity.mk [0xff, 0x2f]).Value = [0xff, 0x2f] := by decide
  simp [Parser.parseEvent, Parser.parseDeltaTime, Parser.parseQuantity, parseQuantityLoop,
    Parser.parseMetaEvent, buildMetaEvent, slice, index, bind, Except.bind, pure, Except.pure,
    Meta, SystemExclusive, DividedSystemExclusive, Text, CopyrightNotice, SequenceOrTrackName,
    InstrumentName, Lyrics, Marker, CuePoint, MIDIPortPrefix, MIDIChannelPrefix, SetTempo,
    SMPTEOffset, TimeSignature, KeySignature, SequencerSpecific, EndOfTrack, hU, hV]
  rw [if_pos h]

/-- On a buffer that starts `FF 2F 00`, entered with previous status `0xF0` and
with room for a second event: `parseTrack` returns the track of a nil event
followed by an EndOfTrackEvent, 32617 bytes further. -/
theorem parseTrack_ff2f_sysex (rest : List Nat) (pos : Nat) (h : pos + 16308 < rest.length + 3) :
    (Parser.mk (0xff :: 0x2f :: 0x00 :: rest) pos 0xf0).parseTrack =
      some (.ok (⟨[none, some (.EndOfTrackEvent ⟨⟨[0xff, 0x2f]⟩⟩)]⟩,
        Parser.mk (0xff :: 0x2f :: 0x00 :: rest) (pos + 16308 + 16309) 0xff)) := by
  have h2 : parseTrackLoop 2 (Parser.mk (0xff :: 0x2f :: 0x00 :: rest) pos 0xf0) ⟨[]⟩ =
      some (.ok (⟨[none, some (.EndOfTrackEvent ⟨⟨[0xff, 0x2f]⟩⟩)]⟩,
        Parser.mk (0xff :: 0x2f :: 0x00 :: rest) (pos + 16308 + 16309) 0xff)) := by
    have c1 : ¬ pos ≥ (0xff :: 0x2f :: 0x00 :: rest).length := by
      simp only [List.length_cons]
      omega
    have c2 : ¬ pos + 16308 ≥ (0xff :: 0x2f :: 0x00 :: rest).length := by
      simp only [List.length_cons]
      omega
    rw [parseTrackLoop]
    simp only [if_neg c1, parseEvent_ff2f_sysex]
    rw [parseTrackLoop]
    simp only [if_neg c2, parseEvent_ff2f_meta rest (pos + 16308) (by omega), List.nil_append,
      List.cons_append]
  have := parseTrackLoop_mono 2 (rest.length + 2) _ _ _ h2
  unfold Parser.parseTrack
  have e : (0xff :: 0x2f :: 0x00 :: rest).length + 1 = 2 + (rest.length + 2) := by
    simp only [List.length_cons]
    omega
  rw [e]
  exact this

/-- On a buffer that starts `FF 2F 00`, entered with previous status `0xFF`:
`parseTrack` returns the track of one EndOfTrackEvent, 16309 bytes further. -/
theorem parseTrack_ff2f_meta (rest : List Nat) (pos : Nat) (hpos : pos < rest.length + 3)
    (h : 16304 ≤ rest.length) :
    (Parser.mk (0xff :: 0x2f :: 0x00 :: rest) pos 0xff).parseTrack =
      some (.ok (⟨[some (.EndOfTrackEvent ⟨⟨[0xff, 0x2f]⟩⟩)]⟩,
        Parser.mk (0xff :: 0x2f :: 0x00 :: rest) (pos + 16309) 0xff)) := by
  have h1 : parseTrackLoop 1 (Parser.mk (0xff :: 0x2f :: 0x00 :: rest) pos 0xff) ⟨[]⟩ =
      some (.ok (⟨[some (.EndOfTrackEvent ⟨⟨[0xff, 0x2f]⟩⟩)]⟩,
        Parser.mk (0xff :: 0x2f :: 0x00 :: rest) (pos + 16309) 0xff)) := by
    have c1 : ¬ pos ≥ (0xff :: 0x2f :: 0x00 :: rest).length := by
      simp only [List.length_cons]
      omega
    rw [parseTrackLoop]
    simp only [if_neg c1, parseEvent_ff2f_meta rest pos h, List.nil_append]
  have := parseTrackLoop_mono 1 (rest.length + 3) _ _ _ h1
  unfold Parser.parseTrack
  have e : (0xff :: 0x2f :: 0x00 :: rest).length + 1 = 1 + (rest.length + 3) := by
    simp only [List.length_cons]
    omega
  rw [e]
  exact this

/-- Two chunks on a buffer that starts `FF 2F 00`, read from cursor 3 with previous
status `0xF0`: the first track is entered with `0xF0` and holds a nil event before
its EndOfTrackEvent, the second is entered with `0xFF` and holds the
EndOfTrackEvent alone. `pad` stands for the 32617 bytes between the two chunks. -/
theorem parseTracks_two_chunks (pad : List Nat) (hpad : pad.length = 32617) :
    (Parser.mk (0xff :: 0x2f :: 0x00 ::
        ((MTrk ++ [0x00, 0x00, 0x00, 0x00] ++ pad) ++ (MTrk ++ [0x00, 0x00, 0x00, 0x00] ++ [0x00])))
      3 0xf0).parseTracks 2 =
      some (.ok ([⟨[none, some (.EndOfTrackEvent ⟨⟨[0xff, 0x2f]⟩⟩)]⟩,
          ⟨[some (.EndOfTrackEvent ⟨⟨[0xff, 0x2f]⟩⟩)]⟩],
        Parser.mk (0xff :: 0x2f :: 0x00 ::
          ((MTrk ++ [0x00, 0x00, 0x00, 0x00] ++ pad) ++
            (MTrk ++ [0x00, 0x00, 0x00, 0x00] ++ [0x00]))) 48945 0xff)) := by
  obtain ⟨r1, hr1⟩ : ∃ r1, r1 = MTrk ++ [0x00, 0x00, 0x00, 0x00] ++ pad := ⟨_, rfl⟩
  obtain ⟨r2, hr2⟩ : ∃ r2, r2 = MTrk ++ [0x00, 0x00, 0x00, 0x00] ++ [0x00] := ⟨_, rfl⟩
  rw [← hr1, ← hr2]
  have hl1 : r1.length = 32625 := by simp [hr1, MTrk, hpad]
  have hl2 : r2.length = 9 := by simp [hr2, MTrk]
  have hrest : (r1 ++ r2).length = 32634 := by simp [hl1, hl2]
  -- the first chunk, at cursor 3
  have hs1 : slice (0xff :: 0x2f :: 0x00 :: (r1 ++ r2)) 3 (3 + 4) = .ok MTrk := by
    have := slice_append [0xff, 0x2f, 0x00] (r1 ++ r2) 4 (by omega)
    simp only [List.length_cons, List.length_nil, List.cons_append, List.nil_append] at this
    rw [this, hr1]
    simp [MTrk]
  have hi1 : ∀ i, i < 4 → index (0xff :: 0x2f :: 0x00 :: (r1 ++ r2)) (3 + 4 + i) = .ok 0 := by
    intro i hi
    have := index_append [0xff, 0x2f, 0x00] (r1 ++ r2) (4 + i)
    simp only [List.length_cons, List.length_nil, List.cons_append, List.nil_append] at this
    have e : 3 + 4 + i = 0 + 1 + 1 + 1 + (4 + i) := by omega
    rw [e, this, hr1]
    have hi4 : i = 0 ∨ i = 1 ∨ i = 2 ∨ i = 3 := by omega
    rcases hi4 with rfl | rfl | rfl | rfl <;> simp [index, MTrk]
  have hc1 : readChunkSize (Parser.mk (0xff :: 0x2f :: 0x00 :: (r1 ++ r2)) (3 + 4) 0xf0) =
      .ok 0 := by
    have h0 := hi1 0 (by omega)
    have h1 := hi1 1 (by omega)
    have h2 := hi1 2 (by omega)
    have h3 := hi1 3 (by omega)
    simp only [Nat.add_zero] at h0
    simp [readChunkSize, h0, h1, h2, h3, bind, Except.bind, pure, Except.pure]
  have ht1 := parseTrack_ff2f_sysex (r1 ++ r2) (3 + 4 + 4) (by omega)
  have hchunk1 : parseChunk (Parser.mk (0xff :: 0x2f :: 0x00 :: (r1 ++ r2)) 3 0xf0) =
      some (.ok (⟨[none, some (.EndOfTrackEvent ⟨⟨[0xff, 0x2f]⟩⟩)]⟩,
        Parser.mk (0xff :: 0x2f :: 0x00 :: (r1 ++ r2)) 32628 0xff)) :=
    (parseChunk_ok_iff _ _ _).mpr ⟨0, _, hs1, hc1, ht1, rfl⟩
  -- the second chunk, at cursor 32628
  have ha : (0xff :: 0x2f :: 0x00 :: r1).length = 32628 := by simp [hl1]
  have hs2 : slice (0xff :: 0x2f :: 0x00 :: (r1 ++ r2)) 32628 (32628 + 4) = .ok MTrk := by
    have := slice_append (0xff :: 0x2f :: 0x00 :: r1) r2 4 (by omega)
    rw [ha] at this
    simp only [List.cons_append] at this
    rw [this, hr2]
    simp [MTrk]
  have hi2 : ∀ i, i < 4 → index (0xff :: 0x2f :: 0x00 :: (r1 ++ r2)) (32628 + 4 + i) = .ok 0 := by
    intro i hi
    have := index_append (0xff :: 0x2f :: 0x00 :: r1) r2 (4 + i)
    rw [ha] at this
    simp only [List.cons_append] at this
    have e : 32628 + 4 + i = 32628 + (4 + i) := by omega
    rw [e, this, hr2]
    have hi4 : i = 0 ∨ i = 1 ∨ i = 2 ∨ i = 3 := by omega
    rcases hi4 with rfl | rfl | rfl | rfl <;> simp [index, MTrk]
  have hc2 : readChunkSize (Parser.mk (0xff :: 0x2f :: 0x00 :: (r1 ++ r2)) (32628 + 4) 0xff) =
      .ok 0 := by
    have h0 := hi2 0 (by omega)
    have h1 := hi2 1 (by omega)
    have h2 := hi2 2 (by omega)
    have h3 := hi2 3 (by omega)
    simp only [Nat.add_zero] at h0
    simp [readChunkSize, h0, h1, h2, h3, bind, Except.bind, pure, Except.pure]
  have ht2 := parseTrack_ff2f_meta (r1 ++ r2) (32628 + 4 + 4) (by omega) (by omega)
  have hchunk2 : parseChunk (Parser.mk (0xff :: 0x2f :: 0x00 :: (r1 ++ r2)) 32628 0xff) =
      some (.ok (⟨[some (.EndOfTrackEvent ⟨⟨[0xff, 0x2f]⟩⟩)]⟩,
        Parser.mk (0xff :: 0x2f :: 0x00 :: (r1 ++ r2)) 48945 0xff)) :=
    (parseChunk_ok_iff _ _ _).mpr ⟨0, _, hs2, hc2, ht2, rfl⟩
  unfold Parser.parseTracks
  rw [parseTracksLoop_succ, hchunk1]
  simp only
  rw [parseTracksLoop_succ, hchunk2]
  simp [parseTracksLoop]

/-- C17 when `parseTracks(2)` is called with the cursor at 3 and previous status
`0xF0` on the buffer `FF 2F 00 "MTrk" 00 00 00 00`, 32617 zero bytes,
`"MTrk" 00 00 00 00 00`: two different tracks are returned, the one of the chunk at
cursor 3 first and the one of the chunk at cursor 32628 second; and when
`parseTracks(2)` is called with the cursor at 3 on the buffer
`80 2F FF "MTrk" 00 00 00 05` followed by 70 zero bytes, the first chunk parses,
the four bytes at cursor 69 are not "MTrk" and the call fails. -/
theorem parseTracks_count_witness :
    ((Parser.mk (0xff :: 0x2f :: 0x00 :: ((MTrk ++ [0x00, 0x00, 0x00, 0x00] ++
          List.replicate 32617 0) ++ (MTrk ++ [0x00, 0x00, 0x00, 0x00] ++ [0x00])))
        3 0xf0).parseTracks 2 =
        some (.ok ([⟨[none, some (.EndOfTrackEvent ⟨⟨[0xff, 0x2f]⟩⟩)]⟩,
            ⟨[some (.EndOfTrackEvent ⟨⟨[0xff, 0x2f]⟩⟩)]⟩],
          Parser.mk (0xff :: 0x2f :: 0x00 :: ((MTrk ++ [0x00, 0x00, 0x00, 0x00] ++
            List.replicate 32617 0) ++ (MTrk ++ [0x00, 0x00, 0x00, 0x00] ++ [0x00])))
            48945 0xff)) ∧
      ∃ q chunkSize q3,
        cursorAfterChunks 1 (Parser.mk (0xff :: 0x2f :: 0x00 :: ((MTrk ++
          [0x00, 0x00, 0x00, 0x00] ++ List.replicate 32617 0) ++
          (MTrk ++ [0x00, 0x00, 0x00, 0x00] ++ [0x00]))) 3 0xf0) = some q ∧
        slice q.data q.position (q.position + 4) = .ok MTrk ∧
        readChunkSize (Parser.mk q.data (q.position + 4) q.previousEventType) = .ok chunkSize ∧
        (Parser.mk q.data (q.position + 4 + 4) q.previousEventType).parseTrack =
          some (.ok (⟨[some (.EndOfTrackEvent ⟨⟨[0xff, 0x2f]⟩⟩)]⟩, q3)) ∧
        cursorAfterChunks (1 + 1) (Parser.mk (0xff :: 0x2f :: 0x00 :: ((MTrk ++
          [0x00, 0x00, 0x00, 0x00] ++ List.replicate 32617 0) ++
          (MTrk ++ [0x00, 0x00, 0x00, 0x00] ++ [0x00]))) 3 0xf0) =
          some (Parser.mk q3.data (q3.position + chunkSize) q3.previousEventType)) ∧
    ((1 < 2 ∧
      cursorAfterChunks 1 (Parser.mk ([0x80, 0x2f, 0xff] ++ MTrk ++ [0x00, 0x00, 0x00, 0x05] ++
          List.replicate 70 0) 3 0) =
        some (Parser.mk ([0x80, 0x2f, 0xff] ++ MTrk ++ [0x00, 0x00, 0x00, 0x05] ++
          List.replicate 70 0) 69 0xff) ∧
      slice ([0x80, 0x2f, 0xff] ++ MTrk ++ [0x00, 0x00, 0x00, 0x05] ++ List.replicate 70 0)
        69 (69 + 4) = .ok [0x00, 0x00, 0x00, 0x00] ∧
      [0x00, 0x00, 0x00, 0x00] ≠ MTrk) ∧
      (Parser.mk ([0x80, 0x2f, 0xff] ++ MTrk ++ [0x00, 0x00, 0x00, 0x05] ++ List.replicate 70 0)
        3 0).parseTracks 2 = some (.error .invalidTrackID)) :=
  ⟨⟨parseTracks_two_chunks (List.replicate 32617 0) (List.length_replicate 32617 0),
    (((parseTracks_count (Parser.mk (0xff :: 0x2f :: 0x00 :: ((MTrk ++
        [0x00, 0x00, 0x00, 0x00] ++ List.replicate 32617 0) ++
        (MTrk ++ [0x00, 0x00, 0x00, 0x00] ++ [0x00]))) 3 0xf0) 2).1
      [⟨[none, some (.EndOfTrackEvent ⟨⟨[0xff, 0x2f]⟩⟩)]⟩,
        ⟨[some (.EndOfTrackEvent ⟨⟨[0xff, 0x2f]⟩⟩)]⟩]
      (Parser.mk (0xff :: 0x2f :: 0x00 :: ((MTrk ++ [0x00, 0x00, 0x00, 0x00] ++
        List.replicate 32617 0) ++ (MTrk ++ [0x00, 0x00, 0x00, 0x00] ++ [0x00]))) 48945 0xff)).mp
      (parseTracks_two_chunks (List.replicate 32617 0) (List.length_replicate 32617 0))).2.2
      1 ⟨[some (.EndOfTrackEvent ⟨⟨[0xff, 0x2f]⟩⟩)]⟩ rfl⟩,
   ⟨⟨by decide, by decide, by decide, by decide⟩,
    (parseTracks_count (Parser.mk ([0x80, 0x2f, 0xff] ++ MTrk ++ [0x00, 0x00, 0x00, 0x05] ++
        List.replicate 70 0) 3 0) 2).2.2.1 1
      (Parser.mk ([0x80, 0x2f, 0xff] ++ MTrk ++ [0x00, 0x00, 0x00, 0x05] ++
        List.replicate 70 0) 69 0xff)
      [0x00, 0x00, 0x00, 0x00] (by decide) (by decide) (by decide) (by decide)⟩⟩

end Midi
